import Mathlib

/-!
The dexec source-to-container invocation resolver.

A shallow embedding of `dexec.go`: the extension extractor, the image table,
the path specifier parser and the assembly of the container invocation.

Go strings are modelled as the sequence of characters the `regexp` package
decodes from them.  The three regular expressions of the source are given as
terms of a small regular-expression syntax and run by a backtracking matcher
with Go's leftmost-first (Perl-like) preference: a greedy repetition tries the
longest run first, an alternation tries its left branch first, and the search
returns the match with the leftmost start.
-/

namespace Dexec

/-- A Go string, as the list of its characters. -/
abbrev GoString := List Char

/-! ## Regular expressions (the fragment of `regexp` the source uses) -/

/-- Regular expressions: character classes, greedy `x*` and `x+` over a
character class, concatenation, alternation and numbered capture groups. -/
inductive Regex where
  | cls (p : Char → Bool)
  | star (p : Char → Bool)
  | plus (p : Char → Bool)
  | cat (a b : Regex)
  | alt (a b : Regex)
  | cap (n : Nat) (a : Regex)

/-- A matcher thread: the current offset, the input that is left, and the
offsets recorded for the capture groups so far. -/
structure MState where
  pos : Nat
  rest : GoString
  caps : List (Option (Nat × Nat))

/-- Greedy repetition of a character class followed by the continuation `k`:
consume as long as the class matches, then back off one character at a time
until `k` succeeds. -/
def stepStar (p : Char → Bool) (k : MState → Option MState)
    (caps : List (Option (Nat × Nat))) : Nat → GoString → Option MState
  | pos, [] => k ⟨pos, [], caps⟩
  | pos, c :: r =>
    if p c then
      match stepStar p k caps (pos + 1) r with
      | some m => some m
      | none => k ⟨pos, c :: r, caps⟩
    else k ⟨pos, c :: r, caps⟩

/-- The backtracking matcher: `run re k st` is the preferred way to match `re`
at `st` such that the continuation `k` succeeds afterwards. -/
def run : Regex → (MState → Option MState) → MState → Option MState
  | .cls p, k, st =>
    match st.rest with
    | [] => none
    | c :: r => if p c then k ⟨st.pos + 1, r, st.caps⟩ else none
  | .star p, k, st => stepStar p k st.caps st.pos st.rest
  | .plus p, k, st =>
    match st.rest with
    | [] => none
    | c :: r => if p c then stepStar p k st.caps (st.pos + 1) r else none
  | .cat a b, k, st => run a (run b k) st
  | .alt a b, k, st =>
    match run a k st with
    | some m => some m
    | none => run b k st
  | .cap n a, k, st =>
    run a (fun st' => k ⟨st'.pos, st'.rest, st'.caps.set n (some (st.pos, st'.pos))⟩) st

/-- The number of capture groups of an expression (groups are numbered from 1). -/
def numSubexp : Regex → Nat
  | .cls _ => 0
  | .star _ => 0
  | .plus _ => 0
  | .cat a b => max (numSubexp a) (numSubexp b)
  | .alt a b => max (numSubexp a) (numSubexp b)
  | .cap n a => max n (numSubexp a)

/-- One attempt of the search: match the expression at the offset `pos`, with
no group set, and record the whole match as group 0. -/
def matchAt (re : Regex) (pos : Nat) (rest : GoString) : Option MState :=
  match run re some ⟨pos, rest, List.replicate (numSubexp re + 1) none⟩ with
  | some m => some ⟨m.pos, m.rest, m.caps.set 0 (some (pos, m.pos))⟩
  | none => none

/-- The unanchored search: try every start offset from the left, the end of
the input included, and keep the first one at which the expression matches. -/
def findFrom (re : Regex) : Nat → GoString → Option MState
  | pos, [] => matchAt re pos []
  | pos, c :: r =>
    match matchAt re pos (c :: r) with
    | some m => some m
    | none => findFrom re (pos + 1) r

/-- The text of one capture group: `s[a:b]`, or the empty string for a group
that took no part in the match. -/
def submatch (s : GoString) : Option (Nat × Nat) → GoString
  | none => []
  | some (a, b) => (s.drop a).take (b - a)

/-- Go's `(*Regexp).FindStringSubmatch`: the texts of the leftmost match and
of its groups, or the empty (nil) slice when there is no match. -/
def FindStringSubmatch (re : Regex) (s : GoString) : List GoString :=
  match findFrom re 0 s with
  | none => []
  | some m => m.caps.map (submatch s)

/-- A literal character. -/
def lit (c : Char) : Regex := .cls (fun x => x == c)

/-- The class `.`: any character but the line feed. -/
def anyChar (c : Char) : Bool := c != '\n'

/-- The class `\w`: ASCII letters, digits and the underscore. -/
def isWordChar (c : Char) : Bool :=
  (decide ('0' ≤ c) && decide (c ≤ '9')) || (decide ('A' ≤ c) && decide (c ≤ 'Z')) ||
    (decide ('a' ≤ c) && decide (c ≤ 'z')) || c == '_'

/-- The class `[\w.-]`. -/
def isNameChar (c : Char) : Bool := isWordChar c || c == '.' || c == '-'

/-! ## The source -/

/-- The pattern `.*\.(.*):.*` of `ExtractFileExtension`. -/
def patternPermission : Regex :=
  .cat (.star anyChar) (.cat (lit '.') (.cat (.cap 1 (.star anyChar))
    (.cat (lit ':') (.star anyChar))))

/-- The pattern `.*\.(.*)` of `ExtractFileExtension`. -/
def patternFilename : Regex :=
  .cat (.star anyChar) (.cat (lit '.') (.cap 1 (.star anyChar)))

/-- `ExtractFileExtension`: the first group of the permission pattern when it
matches, else the first group of the filename pattern.  Indexing element 1 of
the empty match of a filename that matches neither is a run-time panic,
modelled as `none`. -/
def ExtractFileExtension (filename : GoString) : Option GoString :=
  let permissionMatch := FindStringSubmatch patternPermission filename
  if permissionMatch.length > 0 then
    permissionMatch[1]?
  else
    (FindStringSubmatch patternFilename filename)[1]?

/-- The dictionary inside the `LookupExtensionByImage` closure. -/
def innerMap : List (String × String) :=
  [("c", "c"), ("clj", "clojure"), ("coffee", "coffee"), ("cpp", "cpp"),
   ("cs", "csharp"), ("d", "d"), ("erl", "erlang"), ("fs", "fsharp"),
   ("go", "go"), ("groovy", "groovy"), ("hs", "haskell"), ("java", "java"),
   ("lisp", "lisp"), ("js", "node"), ("m", "objc"), ("ml", "ocaml"),
   ("pl", "perl"), ("php", "php"), ("py", "python"), ("rkt", "racket"),
   ("rb", "ruby"), ("rs", "rust"), ("scala", "scala"), ("sh", "bash")]

/-- Indexing a Go map of strings: the stored value, or the zero value `""`
for a key that is absent. -/
def mapIndex : List (String × String) → GoString → GoString
  | [], _ => []
  | (k, v) :: rest, key => if key = k.toList then v.toList else mapIndex rest key

/-- `LookupExtensionByImage`: the image name stored for an extension. -/
def LookupExtensionByImage (key : GoString) : GoString := mapIndex innerMap key

/-- The constant `dexecPath`. -/
def dexecPath : GoString := "/tmp/dexec/build".toList

/-- The pattern `([\w.-]+)(:(rw|ro))` of `ExtractBasenameAndPermission`. -/
def pathPattern : Regex :=
  .cat (.cap 1 (.plus isNameChar))
    (.cap 2 (.cat (lit ':') (.cap 3 (.alt (.cat (lit 'r') (lit 'w')) (.cat (lit 'r') (lit 'o'))))))

/-- `ExtractBasenameAndPermission`: groups 1 and 2 of the path pattern when the
match has its four elements, else the whole path and the empty permission. -/
def ExtractBasenameAndPermission (path : GoString) : GoString × GoString :=
  let m := FindStringSubmatch pathPattern path
  if m.length = 4 then (m.getD 1 [], m.getD 2 []) else (path, [])

/-- Modelled from the spec: the `OptionType` enumeration, which is declared
outside `dexec.go`; these are the option kinds the spec lists and the source
refers to. -/
inductive OptionType where
  | Source | Include | BuildArg | Arg | TargetDir | UpdateFlag | HelpFlag | VersionFlag
  deriving DecidableEq

/-- The option set `map[OptionType][]string`; a kind without values maps to
the empty slice. -/
abbrev Options := OptionType → List GoString

/-- Modelled from the spec: the `CLI` type, which is declared outside
`dexec.go`, with the two fields the source reads. -/
structure CLI where
  filename : GoString
  options : Options

/-- What the program does to the outside world, in order: the calls of the
external collaborators, a fatal log message, a run-time panic. -/
inductive Effect where
  | Fatal (msg : GoString)
  | DisplayVersion (filename : GoString)
  | DisplayHelp (filename : GoString)
  | DockerPull (image : GoString)
  | RunAnonymousContainer (image : GoString) (dockerArgs entrypointArgs : List GoString)
  | Panic
  deriving DecidableEq

/-- Modelled from the spec: `AddPrefix`, a helper of this repository that is
not in `dexec.go`.  Every value is preceded by the fixed flag token. -/
def AddPrefix (values : List GoString) (flag : GoString) : List GoString :=
  values.foldl (fun acc v => acc ++ [flag, v]) []

/-- Modelled from the spec: `JoinStringSlices`, a helper of this repository
that is not in `dexec.go`.  The slices are concatenated into one ordered
sequence. -/
def JoinStringSlices (slices : List (List GoString)) : List GoString :=
  slices.foldl (fun acc s => acc ++ s) []

/-- The result of `fmt.Sprintf(dexecImageTemplate, image)`. -/
def dexecImageTemplate (image : GoString) : GoString := "dexec/".toList ++ image

/-- The result of `fmt.Sprintf(dexecVolumeTemplate, a, b, c, d)`. -/
def dexecVolumeTemplate (a b c d : GoString) : GoString :=
  a ++ "/".toList ++ b ++ ":".toList ++ c ++ "/".toList ++ d

/-- The docker arguments of `RunDexecContainer`: the loop over the sources
followed by the includes, appending one `-v` pair per entry. -/
def dockerArgsOf (absPath : GoString) (options : Options) : List GoString :=
  (options .Source ++ options .Include).foldl
    (fun dockerArgs source =>
      dockerArgs ++ ["-v".toList,
        dexecVolumeTemplate absPath (ExtractBasenameAndPermission source).1 dexecPath source])
    []

/-- The loop of `RunDexecContainer` that collects the basenames of the sources. -/
def sourceBasenamesOf (options : Options) : List GoString :=
  (options .Source).foldl
    (fun sourceBasenames source =>
      sourceBasenames ++ [(ExtractBasenameAndPermission source).1])
    []

/-- The entrypoint arguments of `RunDexecContainer`. -/
def entrypointArgsOf (options : Options) : List GoString :=
  JoinStringSlices
    [sourceBasenamesOf options,
     AddPrefix (options .BuildArg) "-b".toList,
     AddPrefix (options .Arg) "-a".toList]

/-- `RunDexecContainer`, as the calls it makes.  `abs` stands for
`filepath.Abs` in the process's working directory. -/
def RunDexecContainer (abs : GoString → GoString) (dexecImage : GoString)
    (options : Options) : List Effect :=
  let dockerImage := dexecImageTemplate dexecImage
  let path := match options .TargetDir with
    | [] => ".".toList
    | t :: _ => t
  let absPath := abs path
  let dockerArgs := dockerArgsOf absPath options
  let entrypointArgs := entrypointArgsOf options
  (if (options .UpdateFlag).length > 0 then [Effect.DockerPull dockerImage] else []) ++
    [Effect.RunAnonymousContainer dockerImage dockerArgs entrypointArgs]

/-- `validate`: the effects it has, and its result (`none` when `log.Fatal`
ended the process). -/
def validate (dockerPresent dockerRunning : Bool) (cli : CLI) : List Effect × Option Bool :=
  if !dockerPresent then ([Effect.Fatal "Docker not found".toList], none)
  else if !dockerRunning then ([Effect.Fatal "Docker not running".toList], none)
  else if (cli.options .VersionFlag).length ≠ 0 then
    ([Effect.DisplayVersion cli.filename], some false)
  else if (cli.options .Source).length = 0 ∨ (cli.options .HelpFlag).length ≠ 0 ∨
      (cli.options .TargetDir).length > 1 then
    ([Effect.DisplayHelp cli.filename], some false)
  else ([], some true)

/-- `main`, from the parsed command line on. -/
def main (abs : GoString → GoString) (dockerPresent dockerRunning : Bool) (cli : CLI) :
    List Effect :=
  match validate dockerPresent dockerRunning cli with
  | (effects, some true) =>
    match cli.options .Source with
    | [] => effects ++ [Effect.Panic]
    | source :: _ =>
      match ExtractFileExtension source with
      | none => effects ++ [Effect.Panic]
      | some ext => effects ++ RunDexecContainer abs (LookupExtensionByImage ext) cli.options
  | (effects, _) => effects

/-! ## Notions used in the statements -/

/-- The two permission suffixes, `:ro` and `:rw`. -/
def permSuffixes : List GoString := [[':', 'r', 'o'], [':', 'r', 'w']]

/-- The second half `(:(rw|ro))` of the path pattern. -/
def permTail : Regex :=
  .cap 2 (.cat (lit ':') (.cap 3 (.alt (.cat (lit 'r') (lit 'w')) (.cat (lit 'r') (lit 'o')))))

/-- The input has a character of the class `[\w.-]` immediately followed by a
permission suffix. -/
def HasPermission (s : GoString) : Prop :=
  ∃ u c sfx v, s = u ++ c :: (sfx ++ v) ∧ isNameChar c = true ∧ sfx ∈ permSuffixes

/-- A permission suffix starts the string. -/
def suffixAt (r : GoString) : Bool := permSuffixes.any (fun sfx => sfx.isPrefixOf r)

/-- The executable form of `HasPermission`: scan for a character of the class
with a permission suffix right after it. -/
def scanPermission : GoString → Bool
  | [] => false
  | c :: r => (isNameChar c && suffixAt r) || scanPermission r

/-! ## The greedy repetition -/

/-- At a character the class rejects, or at the end of the input, the
repetition takes nothing. -/
theorem stepStar_boundary (p : Char → Bool) (k : MState → Option MState)
    (caps : List (Option (Nat × Nat))) (pos : Nat) (v : GoString)
    (hv : ∀ c ∈ v.head?, p c = false) :
    stepStar p k caps pos v = k ⟨pos, v, caps⟩ := by
  cases v with
  | nil => rfl
  | cons c r =>
    have hc : p c = false := hv c (by simp)
    simp [stepStar, hc]

/-- A success further to the right is preferred. -/
theorem stepStar_append_some (p : Char → Bool) (k : MState → Option MState)
    (caps : List (Option (Nat × Nat))) (u : GoString) :
    ∀ (pos : Nat) (w : GoString) (m : MState), (∀ c ∈ u, p c = true) →
      stepStar p k caps (pos + u.length) w = some m →
      stepStar p k caps pos (u ++ w) = some m := by
  induction u with
  | nil => intro pos w m _ h; simpa using h
  | cons c u ih =>
    intro pos w m hu h
    have hc : p c = true := hu c (by simp)
    have hrec : stepStar p k caps (pos + 1) (u ++ w) = some m := by
      apply ih
      · intro x hx; exact hu x (by simp [hx])
      · have : pos + 1 + u.length = pos + (c :: u).length := by simp; omega
        rw [this]; exact h
    simp [stepStar, hc, hrec]

/-- When the repetition fails, the continuation fails after every run of
class characters. -/
theorem stepStar_none_elim (p : Char → Bool) (k : MState → Option MState)
    (caps : List (Option (Nat × Nat))) (r : GoString) :
    ∀ (pos : Nat), stepStar p k caps pos r = none →
      ∀ u v, r = u ++ v → (∀ c ∈ u, p c = true) → k ⟨pos + u.length, v, caps⟩ = none := by
  induction r with
  | nil =>
    intro pos h u v huv _
    have hu : u = [] := by
      cases u with
      | nil => rfl
      | cons _ _ => simp at huv
    subst hu
    simp at huv
    subst huv
    simpa [stepStar] using h
  | cons c r ih =>
    intro pos h u v huv hu
    cases u with
    | nil =>
      simp at huv
      subst huv
      by_cases hc : p c = true
      · simp only [stepStar, hc, if_true] at h
        cases hrec : stepStar p k caps (pos + 1) r with
        | none => rw [hrec] at h; simpa using h
        | some m => rw [hrec] at h; simp at h
      · simp only [stepStar, hc] at h
        simpa using h
    | cons x u =>
      simp at huv
      obtain ⟨hx, hr⟩ := huv
      subst hx
      have hc : p c = true := hu c (by simp)
      simp only [stepStar, hc, if_true] at h
      cases hrec : stepStar p k caps (pos + 1) r with
      | none =>
        have := ih (pos + 1) hrec u v hr (fun y hy => hu y (by simp [hy]))
        have e : pos + (c :: u).length = pos + 1 + u.length := by simp; omega
        rw [e]; exact this
      | some m => rw [hrec] at h; simp at h

/-- A result of the repetition comes from the continuation after the longest
run of class characters after which the continuation succeeds. -/
theorem stepStar_some_elim (p : Char → Bool) (k : MState → Option MState)
    (caps : List (Option (Nat × Nat))) (r : GoString) :
    ∀ (pos : Nat) (m : MState), stepStar p k caps pos r = some m →
      ∃ u v, r = u ++ v ∧ (∀ c ∈ u, p c = true) ∧ k ⟨pos + u.length, v, caps⟩ = some m ∧
        ∀ u' v', r = u' ++ v' → (∀ c ∈ u', p c = true) → u.length < u'.length →
          k ⟨pos + u'.length, v', caps⟩ = none := by
  induction r with
  | nil =>
    intro pos m h
    refine ⟨[], [], rfl, by simp, by simpa [stepStar] using h, ?_⟩
    intro u' v' huv _ hlt
    have : u' = [] := by
      cases u' with
      | nil => rfl
      | cons _ _ => simp at huv
    subst this
    simp at hlt
  | cons c r ih =>
    intro pos m h
    by_cases hc : p c = true
    · simp only [stepStar, hc, if_true] at h
      cases hrec : stepStar p k caps (pos + 1) r with
      | some m' =>
        rw [hrec] at h
        simp at h
        subst h
        obtain ⟨u, v, huv, hu, hk, hmax⟩ := ih (pos + 1) m' hrec
        refine ⟨c :: u, v, by simp [huv], ?_, ?_, ?_⟩
        · intro x hx
          rcases List.mem_cons.mp hx with hx | hx
          · subst hx; exact hc
          · exact hu x hx
        · have e : pos + (c :: u).length = pos + 1 + u.length := by simp; omega
          rw [e]; exact hk
        · intro u' v' huv' hu' hlt
          cases u' with
          | nil => simp at hlt
          | cons x u'' =>
            simp at huv'
            have := hmax u'' v' huv'.2 (fun y hy => hu' y (by simp [hy]))
              (by simpa using hlt)
            have e : pos + (x :: u'').length = pos + 1 + u''.length := by simp; omega
            rw [e]; exact this
      | none =>
        rw [hrec] at h
        simp at h
        refine ⟨[], c :: r, rfl, by simp, by simpa using h, ?_⟩
        intro u' v' huv' hu' hlt
        cases u' with
        | nil => simp at hlt
        | cons x u'' =>
          simp at huv'
          have := stepStar_none_elim p k caps r (pos + 1) hrec u'' v' huv'.2
            (fun y hy => hu' y (by simp [hy]))
          have e : pos + (x :: u'').length = pos + 1 + u''.length := by simp; omega
          rw [e]; exact this
    · simp only [stepStar, hc] at h
      refine ⟨[], c :: r, rfl, by simp, by simpa using h, ?_⟩
      intro u' v' huv' hu' hlt
      cases u' with
      | nil => simp at hlt
      | cons x u'' =>
        simp at huv'
        have hx : p x = true := hu' x (by simp)
        rw [← huv'.1] at hx
        exact absurd hx hc

/-- The repetition fails when the continuation fails after every run of class
characters. -/
theorem stepStar_none_intro (p : Char → Bool) (k : MState → Option MState)
    (caps : List (Option (Nat × Nat))) (r : GoString) (pos : Nat)
    (h : ∀ u v, r = u ++ v → (∀ c ∈ u, p c = true) → k ⟨pos + u.length, v, caps⟩ = none) :
    stepStar p k caps pos r = none := by
  cases hs : stepStar p k caps pos r with
  | none => rfl
  | some m =>
    obtain ⟨u, v, huv, hu, hk, _⟩ := stepStar_some_elim p k caps r pos m hs
    rw [h u v huv hu] at hk
    simp at hk

/-- A run of class characters inside `e ++ v`, where `v` starts with a
character outside the class, ends inside `e`. -/
theorem split_before_boundary (p : Char → Bool) (e v u' v' : GoString)
    (h : e ++ v = u' ++ v') (hu' : ∀ c ∈ u', p c = true) (hv : ∀ c ∈ v.head?, p c = false) :
    ∃ e2, e = u' ++ e2 ∧ v' = e2 ++ v := by
  rcases List.append_eq_append_iff.mp h with ⟨a', ha, hb⟩ | ⟨c', hc, hd⟩
  · -- `u' = e ++ a'` and `v = a' ++ v'`
    cases a' with
    | nil => exact ⟨[], by simpa using ha.symm, by simpa using hb.symm⟩
    | cons x a' =>
      exfalso
      have h1 : p x = true := hu' x (by simp [ha])
      have h2 : p x = false := hv x (by simp [hb])
      rw [h1] at h2
      exact Bool.noConfusion h2
  · exact ⟨c', hc, hd⟩

/-- The repetition fails in front of a continuation that needs a character of
the class `q` next, when no such character is in reach. -/
theorem stepStar_none_of_head (p q : Char → Bool) (k : MState → Option MState)
    (caps : List (Option (Nat × Nat))) (pos : Nat) (e v : GoString)
    (he : ∀ c ∈ e, q c = false) (hv : ∀ c ∈ v.head?, p c = false ∧ q c = false)
    (hk : ∀ st : MState, (∀ c ∈ st.rest.head?, q c = false) → k st = none) :
    stepStar p k caps pos (e ++ v) = none := by
  apply stepStar_none_intro
  intro u' v' huv hu'
  obtain ⟨e2, he2, hv'⟩ := split_before_boundary p e v u' v' huv hu' (fun c hc => (hv c hc).1)
  apply hk
  intro c hc
  subst hv'
  cases e2 with
  | nil => exact (hv c (by simpa using hc)).2
  | cons x e2 =>
    simp at hc
    subst hc
    exact he x (by simp [he2])

/-- The greedy repetition in front of a continuation that succeeds at the
boundary of the run: the whole run is taken. -/
theorem stepStar_whole_run (p : Char → Bool) (k : MState → Option MState)
    (caps : List (Option (Nat × Nat))) (pos : Nat) (u v : GoString) (m : MState)
    (hu : ∀ c ∈ u, p c = true) (hv : ∀ c ∈ v.head?, p c = false)
    (hk : k ⟨pos + u.length, v, caps⟩ = some m) :
    stepStar p k caps pos (u ++ v) = some m := by
  apply stepStar_append_some p k caps u pos v m hu
  rw [stepStar_boundary p k caps _ v hv]
  exact hk

/-! ## The unanchored search -/

/-- A match at the first start offset is the result of the search. -/
theorem findFrom_of_matchAt (re : Regex) (pos : Nat) (r : GoString) (m : MState)
    (h : matchAt re pos r = some m) : findFrom re pos r = some m := by
  cases r with
  | nil => simpa [findFrom] using h
  | cons c r => simp [findFrom, h]

/-- When the search fails, the expression matches at no start offset. -/
theorem findFrom_none_elim (re : Regex) (r : GoString) :
    ∀ pos : Nat, findFrom re pos r = none →
      ∀ u v, r = u ++ v → matchAt re (pos + u.length) v = none := by
  induction r with
  | nil =>
    intro pos hn u v huv
    have hu : u = [] := by
      cases u with
      | nil => rfl
      | cons _ _ => simp at huv
    subst hu
    simp at huv
    subst huv
    simpa [findFrom] using hn
  | cons c r ih =>
    intro pos hn u v huv
    simp only [findFrom] at hn
    cases hr : matchAt re pos (c :: r) with
    | some m => rw [hr] at hn; simp at hn
    | none =>
      rw [hr] at hn
      simp only at hn
      cases u with
      | nil =>
        simp at huv
        subst huv
        simpa using hr
      | cons x u =>
        simp at huv
        have := ih (pos + 1) hn u v huv.2
        have e : pos + (x :: u).length = pos + 1 + u.length := by simp; omega
        rw [e]; exact this

/-- A result of the search is a match at the leftmost start offset at which
the expression matches. -/
theorem findFrom_some_elim (re : Regex) (r : GoString) :
    ∀ (pos : Nat) (M : MState), findFrom re pos r = some M →
      ∃ u v, r = u ++ v ∧ matchAt re (pos + u.length) v = some M ∧
        ∀ u' v', r = u' ++ v' → u'.length < u.length →
          matchAt re (pos + u'.length) v' = none := by
  induction r with
  | nil =>
    intro pos M h
    refine ⟨[], [], rfl, by simpa [findFrom] using h, ?_⟩
    intro u' v' _ hlt
    simp at hlt
  | cons c r ih =>
    intro pos M h
    simp only [findFrom] at h
    cases hr : matchAt re pos (c :: r) with
    | some m =>
      rw [hr] at h
      simp at h
      subst h
      refine ⟨[], c :: r, rfl, by simpa using hr, ?_⟩
      intro u' v' _ hlt
      simp at hlt
    | none =>
      rw [hr] at h
      simp only at h
      obtain ⟨u, v, huv, hrun, hmin⟩ := ih (pos + 1) M h
      have e : pos + (c :: u).length = pos + 1 + u.length := by simp; omega
      refine ⟨c :: u, v, by simp [huv], by rw [e]; exact hrun, ?_⟩
      intro u' v' huv' hlt
      cases u' with
      | nil =>
        simp at huv'
        subst huv'
        simpa using hr
      | cons x u'' =>
        simp at huv'
        have := hmin u'' v' huv'.2 (by simpa using hlt)
        have e' : pos + (x :: u'').length = pos + 1 + u''.length := by simp; omega
        rw [e']; exact this

/-- The search fails when the expression matches at no start offset. -/
theorem findFrom_none_intro (re : Regex) (r : GoString) (pos : Nat)
    (h : ∀ u v, r = u ++ v → matchAt re (pos + u.length) v = none) :
    findFrom re pos r = none := by
  cases hs : findFrom re pos r with
  | none => rfl
  | some M =>
    obtain ⟨u, v, huv, hm, _⟩ := findFrom_some_elim re r pos M hs
    rw [h u v huv] at hm
    simp at hm

/-- The search skips a prefix at whose offsets the expression does not match. -/
theorem findFrom_skip (re : Regex) (u : GoString) :
    ∀ (pos : Nat) (w : GoString),
      (∀ u1 u2, u = u1 ++ u2 → u2 ≠ [] → matchAt re (pos + u1.length) (u2 ++ w) = none) →
      findFrom re pos (u ++ w) = findFrom re (pos + u.length) w := by
  induction u with
  | nil => intro pos w _; simp
  | cons c u ih =>
    intro pos w h
    have h0 := h [] (c :: u) rfl (by simp)
    simp at h0
    have hstep : findFrom re pos (c :: u ++ w) = findFrom re (pos + 1) (u ++ w) := by
      show findFrom re pos (c :: (u ++ w)) = _
      simp only [findFrom, h0]
    rw [hstep, ih (pos + 1) w]
    · have e : pos + (c :: u).length = pos + 1 + u.length := by simp; omega
      rw [e]
    · intro u1 u2 hu hne
      have := h (c :: u1) u2 (by simp [hu]) hne
      have e : pos + (c :: u1).length = pos + 1 + u1.length := by simp; omega
      rw [e] at this
      exact this

/-! ## The two patterns of `ExtractFileExtension` -/

theorem anyChar_iff (c : Char) : anyChar c = true ↔ c ≠ '\n' := by
  simp [anyChar]

/-- The filename pattern at the start of a line: the first repetition runs up
to the last `.` of the line and the group takes the rest of the line. -/
theorem matchAt_patternFilename (pos : Nat) (a e v : GoString)
    (ha : ∀ c ∈ a, c ≠ '\n') (he : ∀ c ∈ e, c ≠ '\n' ∧ c ≠ '.')
    (hv : ∀ c ∈ v.head?, c = '\n') :
    matchAt patternFilename pos (a ++ '.' :: (e ++ v)) =
      some ⟨pos + a.length + 1 + e.length, v,
        [some (pos, pos + a.length + 1 + e.length),
         some (pos + a.length + 1, pos + a.length + 1 + e.length)]⟩ := by
  have hrun : run patternFilename some
      ⟨pos, a ++ '.' :: (e ++ v), List.replicate (numSubexp patternFilename + 1) none⟩ =
      some ⟨pos + a.length + 1 + e.length, v,
        [none, some (pos + a.length + 1, pos + a.length + 1 + e.length)]⟩ := by
    simp only [patternFilename, run, lit, numSubexp]
    apply stepStar_append_some
    · intro c hc; exact (anyChar_iff c).mpr (ha c hc)
    · rw [stepStar]
      have hdot : anyChar '.' = true := by decide
      simp only [hdot, if_true]
      rw [stepStar_none_of_head anyChar (fun c => c == '.') _ _ _ e v]
      · simp only [beq_self_eq_true, if_true]
        apply stepStar_whole_run
        · exact fun c hc => (anyChar_iff c).mpr (he c hc).1
        · exact fun c hc => by rw [hv c hc]; decide
        · simp [List.replicate]
      · intro c hc; simpa using (he c hc).2
      · intro c hc; rw [hv c hc]; decide
      · rintro ⟨p, r, cs⟩ h
        cases r with
        | nil => rfl
        | cons x r =>
          have : (x == '.') = false := h x (by simp)
          simp [this]
  simp only [matchAt, hrun]
  simp

/-- The filename pattern does not match where the line has no `.`. -/
theorem matchAt_patternFilename_none (pos : Nat) (u v : GoString)
    (hu : ∀ c ∈ u, c ≠ '.') (hv : ∀ c ∈ v.head?, c = '\n') :
    matchAt patternFilename pos (u ++ v) = none := by
  have hrun : run patternFilename some
      ⟨pos, u ++ v, List.replicate (numSubexp patternFilename + 1) none⟩ = none := by
    simp only [patternFilename, run, lit, numSubexp]
    apply stepStar_none_of_head anyChar (fun c => c == '.')
    · intro c hc; simpa using hu c hc
    · intro c hc; rw [hv c hc]; decide
    · rintro ⟨p, r, cs⟩ h
      cases r with
      | nil => rfl
      | cons x r =>
        have : (x == '.') = false := h x (by simp)
        simp [this]
  simp only [matchAt, hrun]

/-- The permission pattern at the start of a line: the first repetition runs
up to the last `.` that has a `:` after it on the line, and the group runs up
to the last `:` of the line. -/
theorem matchAt_patternPermission (pos : Nat) (a e t v : GoString)
    (ha : ∀ c ∈ a, c ≠ '\n') (he : ∀ c ∈ e, c ≠ '\n' ∧ c ≠ '.')
    (ht : ∀ c ∈ t, c ≠ '\n' ∧ c ≠ ':') (hv : ∀ c ∈ v.head?, c = '\n') :
    matchAt patternPermission pos (a ++ '.' :: (e ++ ':' :: (t ++ v))) =
      some ⟨pos + a.length + 1 + e.length + 1 + t.length, v,
        [some (pos, pos + a.length + 1 + e.length + 1 + t.length),
         some (pos + a.length + 1, pos + a.length + 1 + e.length)]⟩ := by
  have hrun : run patternPermission some
      ⟨pos, a ++ '.' :: (e ++ ':' :: (t ++ v)),
        List.replicate (numSubexp patternPermission + 1) none⟩ =
      some ⟨pos + a.length + 1 + e.length + 1 + t.length, v,
        [none, some (pos + a.length + 1, pos + a.length + 1 + e.length)]⟩ := by
    simp only [patternPermission, run, lit, numSubexp]
    apply stepStar_append_some
    · intro c hc; exact (anyChar_iff c).mpr (ha c hc)
    · rw [stepStar]
      have hdot : anyChar '.' = true := by decide
      simp only [hdot, if_true]
      rw [stepStar_none_intro]
      · simp only [beq_self_eq_true, if_true]
        apply stepStar_append_some
        · exact fun c hc => (anyChar_iff c).mpr (he c hc).1
        · rw [stepStar]
          have hc : anyChar ':' = true := by decide
          simp only [hc, if_true]
          rw [stepStar_none_of_head anyChar (fun c => c == ':') _ _ _ t v]
          · simp only [beq_self_eq_true, if_true]
            apply stepStar_whole_run
            · exact fun c hc => (anyChar_iff c).mpr (ht c hc).1
            · exact fun c hc => by rw [hv c hc]; decide
            · simp [List.replicate]
          · intro c hc; simpa using (ht c hc).2
          · intro c hc; rw [hv c hc]; decide
          · rintro ⟨p, r, cs⟩ h
            cases r with
            | nil => rfl
            | cons x r =>
              have : (x == ':') = false := h x (by simp)
              simp [this]
      · -- no `.` further to the right has a `:` after it
        intro u' v' huv hu'
        have hsplit : (e ++ [':'] ++ t) ++ v = u' ++ v' := by simpa using huv
        obtain ⟨e2, he2, hv'⟩ := split_before_boundary anyChar (e ++ [':'] ++ t) v u' v' hsplit hu'
          (fun c hc => by rw [hv c hc]; decide)
        subst hv'
        cases e2 with
        | nil =>
          cases v with
          | nil => rfl
          | cons x v =>
            have hx : x = '\n' := hv x (by simp)
            subst hx
            simp
        | cons x e2 =>
          by_cases hx : x = '.'
          · subst hx
            -- the `.` lies in `t`
            have hmem : e2 ⊆ t := by
              rcases List.append_eq_append_iff.mp he2 with ⟨a', h1, h2⟩ | ⟨c', h1, h2⟩
              · -- `u' = (e ++ [':']) ++ a'`, `t = a' ++ '.' :: e2`
                intro y hy
                rw [h2]
                simp [hy]
              · -- `e ++ [':'] = u' ++ c'`, `'.' :: e2 = c' ++ t`
                cases c' with
                | nil =>
                  intro y hy
                  simp at h2
                  rw [← h2]
                  simp [hy]
                | cons z c' =>
                  exfalso
                  simp at h2
                  have hz : z = '.' := h2.1.symm
                  subst hz
                  have hin : '.' ∈ e ++ [':'] := by rw [h1]; simp
                  simp at hin
                  exact (he '.' hin).2 rfl
            simp only [List.cons_append, beq_self_eq_true, if_true]
            apply stepStar_none_of_head anyChar (fun c => c == ':')
            · intro c hc; simpa using (ht c (hmem hc)).2
            · intro c hc; rw [hv c hc]; decide
            · rintro ⟨p, r, cs⟩ h
              cases r with
              | nil => rfl
              | cons x r =>
                have : (x == ':') = false := h x (by simp)
                simp [this]
          · have : (x == '.') = false := by simpa using hx
            simp [this]
  simp only [matchAt, hrun]
  simp

/-- The permission pattern does not match where no `.` of the line has a `:`
after it. -/
theorem matchAt_patternPermission_none (pos : Nat) (u v : GoString)
    (hu : ∀ a b, u = a ++ '.' :: b → ∀ c ∈ b, c ≠ ':') (hv : ∀ c ∈ v.head?, c = '\n') :
    matchAt patternPermission pos (u ++ v) = none := by
  have hrun : run patternPermission some
      ⟨pos, u ++ v, List.replicate (numSubexp patternPermission + 1) none⟩ = none := by
    simp only [patternPermission, run, lit, numSubexp]
    apply stepStar_none_intro
    intro u' v' huv hu'
    obtain ⟨e2, he2, hv'⟩ := split_before_boundary anyChar u v u' v' huv hu'
      (fun c hc => by rw [hv c hc]; decide)
    subst hv'
    cases e2 with
    | nil =>
      cases v with
      | nil => rfl
      | cons x v =>
        have hx : x = '\n' := hv x (by simp)
        subst hx
        simp
    | cons x e2 =>
      by_cases hx : x = '.'
      · subst hx
        simp only [List.cons_append, beq_self_eq_true, if_true]
        apply stepStar_none_of_head anyChar (fun c => c == ':')
        · intro c hc; simpa using hu u' e2 he2 c hc
        · intro c hc; rw [hv c hc]; decide
        · rintro ⟨p, r, cs⟩ h
          cases r with
          | nil => rfl
          | cons x r =>
            have : (x == ':') = false := h x (by simp)
            simp [this]
      · have : (x == '.') = false := by simpa using hx
        simp [this]
  simp only [matchAt, hrun]

/-- The repetition succeeds as soon as the continuation succeeds after some
run of class characters. -/
theorem stepStar_ne_none (p : Char → Bool) (k : MState → Option MState)
    (caps : List (Option (Nat × Nat))) (pos : Nat) (u v : GoString) (m : MState)
    (hu : ∀ c ∈ u, p c = true) (hk : k ⟨pos + u.length, v, caps⟩ = some m) :
    stepStar p k caps pos (u ++ v) ≠ none := by
  intro hn
  rw [stepStar_none_elim p k caps (u ++ v) pos hn u v rfl hu] at hk
  simp at hk

/-- The filename pattern matches only on a line `a.e` with no `.` in `e`. -/
theorem matchAt_patternFilename_elim (pos : Nat) (r : GoString) (M : MState)
    (h : matchAt patternFilename pos r = some M) :
    ∃ a e v, r = a ++ '.' :: (e ++ v) ∧ (∀ c ∈ a, c ≠ '\n') ∧
      (∀ c ∈ e, c ≠ '\n' ∧ c ≠ '.') ∧ (∀ c ∈ v.head?, c = '\n') := by
  cases hr : run patternFilename some
      ⟨pos, r, List.replicate (numSubexp patternFilename + 1) none⟩ with
  | none => simp [matchAt, hr] at h
  | some m =>
    simp only [patternFilename, run, lit, numSubexp] at hr
    obtain ⟨a, v1, hr1, ha, hk1, hmax1⟩ := stepStar_some_elim _ _ _ _ _ _ hr
    dsimp only at hk1
    cases v1 with
    | nil => simp at hk1
    | cons x v2 =>
      by_cases hx : x = '.'
      · subst hx
        simp only [beq_self_eq_true, if_true] at hk1
        obtain ⟨e, v, hr2, he, hk2, hmax2⟩ := stepStar_some_elim _ _ _ _ _ _ hk1
        subst hr2
        have hv : ∀ c ∈ v.head?, c = '\n' := by
          intro c hc
          cases v with
          | nil => simp at hc
          | cons x v' =>
            simp at hc
            subst hc
            by_contra hne
            have := hmax2 (e ++ [x]) v' (by simp)
              (by
                intro y hy
                rcases List.mem_append.mp hy with hy | hy
                · exact he y hy
                · simp at hy; subst hy; exact (anyChar_iff y).mpr hne)
              (by simp)
            simp at this
        refine ⟨a, e, v, hr1, fun c hc => (anyChar_iff c).mp (ha c hc), ?_, ?_⟩
        · intro c hc
          refine ⟨(anyChar_iff c).mp (he c hc), ?_⟩
          intro hdot
          subst hdot
          obtain ⟨e1, e2, he12⟩ := List.append_of_mem hc
          -- a longer first run, up to this later `.`, would have been preferred
          have hlong := hmax1 (a ++ '.' :: e1) ('.' :: (e2 ++ v))
            (by rw [hr1, he12]; simp)
            (by
              intro y hy
              rcases List.mem_append.mp hy with hy | hy
              · exact ha y hy
              · rcases List.mem_cons.mp hy with hy | hy
                · subst hy; decide
                · exact he y (by rw [he12]; simp [hy]))
            (by simp)
          dsimp only at hlong
          simp only [beq_self_eq_true, if_true] at hlong
          have hsome := stepStar_ne_none anyChar
            (fun st' => some ⟨st'.pos, st'.rest,
              st'.caps.set 1 (some (pos + (a ++ '.' :: e1).length + 1, st'.pos))⟩)
            (List.replicate (0 ⊔ (0 ⊔ (1 ⊔ 0)) + 1) none) (pos + (a ++ '.' :: e1).length + 1)
            [] (e2 ++ v) _ (by simp) rfl
          exact hsome hlong
        · exact hv
      · have : (x == '.') = false := by simpa using hx
        simp [this] at hk1

/-- The permission pattern matches only on a line `a.e:t` with no `.` in `e`
and no `:` in `t`. -/
theorem matchAt_patternPermission_elim (pos : Nat) (r : GoString) (M : MState)
    (h : matchAt patternPermission pos r = some M) :
    ∃ a e t v, r = a ++ '.' :: (e ++ ':' :: (t ++ v)) ∧ (∀ c ∈ a, c ≠ '\n') ∧
      (∀ c ∈ e, c ≠ '\n' ∧ c ≠ '.') ∧ (∀ c ∈ t, c ≠ '\n' ∧ c ≠ ':') ∧
      (∀ c ∈ v.head?, c = '\n') := by
  cases hr : run patternPermission some
      ⟨pos, r, List.replicate (numSubexp patternPermission + 1) none⟩ with
  | none => simp [matchAt, hr] at h
  | some m =>
    simp only [patternPermission, run, lit, numSubexp] at hr
    obtain ⟨a, v1, hr1, ha, hk1, hmax1⟩ := stepStar_some_elim _ _ _ _ _ _ hr
    dsimp only at hk1
    cases v1 with
    | nil => simp at hk1
    | cons x v2 =>
      by_cases hx : x = '.'
      · subst hx
        simp only [beq_self_eq_true, if_true] at hk1
        obtain ⟨e, v3, hr2, he, hk2, hmax2⟩ := stepStar_some_elim _ _ _ _ _ _ hk1
        subst hr2
        dsimp only at hk2
        cases v3 with
        | nil => simp at hk2
        | cons y v4 =>
          by_cases hy : y = ':'
          · subst hy
            simp only [beq_self_eq_true, if_true] at hk2
            obtain ⟨t, v, hr3, ht, hk3, hmax3⟩ := stepStar_some_elim _ _ _ _ _ _ hk2
            subst hr3
            refine ⟨a, e, t, v, hr1, fun c hc => (anyChar_iff c).mp (ha c hc), ?_, ?_, ?_⟩
            · intro c hc
              refine ⟨(anyChar_iff c).mp (he c hc), ?_⟩
              intro hdot
              subst hdot
              obtain ⟨e1, e2, he12⟩ := List.append_of_mem hc
              -- a longer first run, up to this later `.`, would have been preferred
              have hlong := hmax1 (a ++ '.' :: e1) ('.' :: (e2 ++ ':' :: (t ++ v)))
                (by rw [hr1, he12]; simp)
                (by
                  intro z hz
                  rcases List.mem_append.mp hz with hz | hz
                  · exact ha z hz
                  · rcases List.mem_cons.mp hz with hz | hz
                    · subst hz; decide
                    · exact he z (by rw [he12]; simp [hz]))
                (by simp)
              dsimp only at hlong
              simp only [beq_self_eq_true, if_true] at hlong
              have h2 := stepStar_none_elim _ _ _ _ _ hlong e2 (':' :: (t ++ v)) rfl
                (fun z hz => he z (by rw [he12]; simp [hz]))
              dsimp only at h2
              simp only [beq_self_eq_true, if_true] at h2
              have h3 := stepStar_none_elim _ _ _ _ _ h2 [] (t ++ v) rfl (by simp)
              simp at h3
            · intro c hc
              refine ⟨(anyChar_iff c).mp (ht c hc), ?_⟩
              intro hcol
              subst hcol
              obtain ⟨t1, t2, ht12⟩ := List.append_of_mem hc
              -- a longer group, up to this later `:`, would have been preferred
              have hlong := hmax2 (e ++ ':' :: t1) (':' :: (t2 ++ v))
                (by rw [ht12]; simp)
                (by
                  intro z hz
                  rcases List.mem_append.mp hz with hz | hz
                  · exact he z hz
                  · rcases List.mem_cons.mp hz with hz | hz
                    · subst hz; decide
                    · exact ht z (by rw [ht12]; simp [hz]))
                (by simp)
              dsimp only at hlong
              simp only [beq_self_eq_true, if_true] at hlong
              have h3 := stepStar_none_elim _ _ _ _ _ hlong [] (t2 ++ v) rfl (by simp)
              simp at h3
            · intro c hc
              cases v with
              | nil => simp at hc
              | cons z v' =>
                simp at hc
                subst hc
                by_contra hne
                have := hmax3 (t ++ [z]) v' (by simp)
                  (by
                    intro w hw
                    rcases List.mem_append.mp hw with hw | hw
                    · exact ht w hw
                    · simp at hw; subst hw; exact (anyChar_iff w).mpr hne)
                  (by simp)
                simp at this
          · have : (y == ':') = false := by simpa using hy
            simp [this] at hk2
      · have : (x == '.') = false := by simpa using hx
        simp [this] at hk1

/-! ## The pattern of `ExtractBasenameAndPermission` -/

theorem pathPattern_eq : pathPattern = .cat (.cap 1 (.plus isNameChar)) permTail := rfl

/-- The suffix group in front of a permission suffix. -/
theorem run_permTail_some (k : MState → Option MState) (q : Nat) (sfx v : GoString)
    (caps : List (Option (Nat × Nat))) (hsfx : sfx ∈ permSuffixes) :
    run permTail k ⟨q, sfx ++ v, caps⟩ =
      k ⟨q + 3, v, (caps.set 3 (some (q + 1, q + 3))).set 2 (some (q, q + 3))⟩ := by
  simp only [permSuffixes, List.mem_cons, List.mem_nil_iff, or_false] at hsfx
  have e : q + 1 + 1 + 1 = q + 3 := by omega
  rcases hsfx with h | h <;> subst h
  · simp [permTail, run, lit]
  · simp only [permTail, run, lit, List.cons_append, List.nil_append, beq_self_eq_true, if_true, e]
    cases k ⟨q + 3, v, (caps.set 3 (some (q + 1, q + 3))).set 2 (some (q, q + 3))⟩ <;> rfl

/-- The suffix group matches only in front of a permission suffix. -/
theorem run_permTail_elim (k : MState → Option MState) (q : Nat) (r : GoString)
    (caps : List (Option (Nat × Nat))) (m : MState)
    (h : run permTail k ⟨q, r, caps⟩ = some m) :
    ∃ sfx v, sfx ∈ permSuffixes ∧ r = sfx ++ v ∧
      k ⟨q + 3, v, (caps.set 3 (some (q + 1, q + 3))).set 2 (some (q, q + 3))⟩ = some m := by
  rcases r with _ | ⟨c1, _ | ⟨c2, _ | ⟨c3, v⟩⟩⟩
  · simp [permTail, run, lit] at h
  · simp [permTail, run, lit] at h
  · simp [permTail, run, lit] at h
  · have e : q + 1 + 1 + 1 = q + 3 := by omega
    simp only [permTail, run, lit, e] at h
    by_cases h1 : c1 = ':'
    · by_cases h2 : c2 = 'r'
      · subst h1 h2
        by_cases h3 : c3 = 'w'
        · subst h3
          refine ⟨[':', 'r', 'w'], v, by simp [permSuffixes], rfl, ?_⟩
          simp only [beq_self_eq_true, if_true] at h
          cases hk : k ⟨q + 3, v, (caps.set 3 (some (q + 1, q + 3))).set 2 (some (q, q + 3))⟩ with
          | some m' => rw [hk] at h; simpa using h
          | none => rw [hk] at h; simp at h
        · by_cases h4 : c3 = 'o'
          · subst h4
            refine ⟨[':', 'r', 'o'], v, by simp [permSuffixes], rfl, ?_⟩
            simpa using h
          · simp [h3, h4] at h
      · simp [h2] at h
    · simp [h1] at h

theorem isNameChar_colon : isNameChar ':' = false := by decide

/-- The path pattern, one step unfolded: the name group, then the suffix group. -/
theorem run_pathPattern (k : MState → Option MState) (pos : Nat) (c : Char) (r : GoString)
    (caps : List (Option (Nat × Nat))) :
    run pathPattern k ⟨pos, c :: r, caps⟩ =
      if isNameChar c = true then
        stepStar isNameChar
          (fun st' => run permTail k ⟨st'.pos, st'.rest, st'.caps.set 1 (some (pos, st'.pos))⟩)
          caps (pos + 1) r
      else none := rfl

theorem run_pathPattern_nil (k : MState → Option MState) (pos : Nat)
    (caps : List (Option (Nat × Nat))) :
    run pathPattern k ⟨pos, [], caps⟩ = none := rfl

theorem head_permSuffix (sfx v : GoString) (hsfx : sfx ∈ permSuffixes) :
    ∀ c ∈ (sfx ++ v).head?, isNameChar c = false := by
  simp only [permSuffixes, List.mem_cons, List.mem_nil_iff, or_false] at hsfx
  rcases hsfx with h | h <;> subst h <;> simp [isNameChar_colon]

/-- The path pattern at the start of a run of name characters that a
permission suffix follows: the name group takes the run, the suffix group the
suffix. -/
theorem matchAt_pathPattern (pos : Nat) (w sfx v : GoString) (hne : w ≠ [])
    (hw : ∀ c ∈ w, isNameChar c = true) (hsfx : sfx ∈ permSuffixes) :
    matchAt pathPattern pos (w ++ (sfx ++ v)) =
      some ⟨pos + w.length + 3, v,
        [some (pos, pos + w.length + 3), some (pos, pos + w.length),
         some (pos + w.length, pos + w.length + 3),
         some (pos + w.length + 1, pos + w.length + 3)]⟩ := by
  cases w with
  | nil => exact absurd rfl hne
  | cons c w =>
    have hc : isNameChar c = true := hw c (by simp)
    have hrun : run pathPattern some
        ⟨pos, c :: w ++ (sfx ++ v), List.replicate (numSubexp pathPattern + 1) none⟩ =
        some ⟨pos + (c :: w).length + 3, v,
          [none, some (pos, pos + (c :: w).length),
           some (pos + (c :: w).length, pos + (c :: w).length + 3),
           some (pos + (c :: w).length + 1, pos + (c :: w).length + 3)]⟩ := by
      rw [List.cons_append, run_pathPattern]
      simp only [hc, if_true]
      apply stepStar_whole_run
      · exact fun x hx => hw x (by simp [hx])
      · exact head_permSuffix sfx v hsfx
      · rw [run_permTail_some _ _ _ _ _ hsfx]
        have e1 : pos + 1 + w.length = pos + (w.length + 1) := by omega
        simp [numSubexp, permTail, List.replicate, e1]
    simp only [matchAt, hrun]
    simp

/-- The path pattern matches only at the start of a run of name characters
that a permission suffix follows. -/
theorem matchAt_pathPattern_elim (pos : Nat) (r : GoString) (M : MState)
    (h : matchAt pathPattern pos r = some M) :
    ∃ w sfx v, r = w ++ (sfx ++ v) ∧ w ≠ [] ∧ (∀ c ∈ w, isNameChar c = true) ∧
      sfx ∈ permSuffixes ∧
      M = ⟨pos + w.length + 3, v,
        [some (pos, pos + w.length + 3), some (pos, pos + w.length),
         some (pos + w.length, pos + w.length + 3),
         some (pos + w.length + 1, pos + w.length + 3)]⟩ := by
  cases hr : run pathPattern some
      ⟨pos, r, List.replicate (numSubexp pathPattern + 1) none⟩ with
  | none => simp [matchAt, hr] at h
  | some m =>
    simp only [matchAt, hr] at h
    cases r with
    | nil => simp [run_pathPattern_nil] at hr
    | cons c r =>
      rw [run_pathPattern] at hr
      by_cases hc : isNameChar c = true
      · simp only [hc, if_true] at hr
        obtain ⟨u, v', huv, hu, hk, _⟩ := stepStar_some_elim _ _ _ _ _ _ hr
        dsimp only at hk
        obtain ⟨sfx, v, hsfx, hv', hm⟩ := run_permTail_elim _ _ _ _ _ hk
        refine ⟨c :: u, sfx, v, by simp [huv, hv'], by simp, ?_, hsfx, ?_⟩
        · intro x hx
          rcases List.mem_cons.mp hx with hx | hx
          · subst hx; exact hc
          · exact hu x hx
        · simp at hm h
          subst hm
          rw [← h]
          have e1 : pos + 1 + u.length = pos + (u.length + 1) := by omega
          simp [numSubexp, permTail, List.replicate, e1]
      · simp [hc] at hr

/-! ## The shape of a match -/

/-- The matcher never changes the number of capture slots. -/
theorem run_caps_length (re : Regex) :
    ∀ (k : MState → Option MState),
      (∀ st m, k st = some m → m.caps.length = st.caps.length) →
      ∀ st m, run re k st = some m → m.caps.length = st.caps.length := by
  induction re with
  | cls p =>
    intro k hk st m h
    rcases st with ⟨q, r, cs⟩
    cases r with
    | nil => simp [run] at h
    | cons c r =>
      by_cases hc : p c = true
      · simp only [run, hc, if_true] at h
        exact hk ⟨q + 1, r, cs⟩ m h
      · simp [run, hc] at h
  | star p =>
    intro k hk st m h
    simp only [run] at h
    obtain ⟨u, v, _, _, hkm, _⟩ := stepStar_some_elim _ _ _ _ _ _ h
    exact hk ⟨st.pos + u.length, v, st.caps⟩ m hkm
  | plus p =>
    intro k hk st m h
    rcases st with ⟨q, r, cs⟩
    cases r with
    | nil => simp [run] at h
    | cons c r =>
      by_cases hc : p c = true
      · simp only [run, hc, if_true] at h
        obtain ⟨u, v, _, _, hkm, _⟩ := stepStar_some_elim _ _ _ _ _ _ h
        exact hk ⟨q + 1 + u.length, v, cs⟩ m hkm
      · simp [run, hc] at h
  | cat a b iha ihb =>
    intro k hk st m h
    simp only [run] at h
    exact iha (run b k) (ihb k hk) st m h
  | alt a b iha ihb =>
    intro k hk st m h
    simp only [run] at h
    cases ha : run a k st with
    | some m' =>
      rw [ha] at h
      simp at h
      subst h
      exact iha k hk st m' ha
    | none =>
      rw [ha] at h
      exact ihb k hk st m h
  | cap n a iha =>
    intro k hk st m h
    simp only [run] at h
    refine iha _ ?_ st m h
    intro st' m' h'
    have := hk _ _ h'
    simpa using this

/-- A match has one slot per group, group 0 included. -/
theorem matchAt_caps_length (re : Regex) (pos : Nat) (r : GoString) (M : MState)
    (h : matchAt re pos r = some M) : M.caps.length = numSubexp re + 1 := by
  cases hr : run re some ⟨pos, r, List.replicate (numSubexp re + 1) none⟩ with
  | none => simp [matchAt, hr] at h
  | some m =>
    simp only [matchAt, hr] at h
    simp at h
    subst h
    have := run_caps_length re some (by intro st m h; simp at h; subst h; rfl) _ _ hr
    simpa using this

/-- `FindStringSubmatch` returns the empty slice or one text per group. -/
theorem FindStringSubmatch_length (re : Regex) (s : GoString) :
    FindStringSubmatch re s = [] ∨ (FindStringSubmatch re s).length = numSubexp re + 1 := by
  cases hf : findFrom re 0 s with
  | none => left; simp [FindStringSubmatch, hf]
  | some M =>
    right
    obtain ⟨u, v, _, hm, _⟩ := findFrom_some_elim re s 0 M hf
    simp [FindStringSubmatch, hf, matchAt_caps_length re _ _ _ hm]

/-- The text between two offsets given by a decomposition of the string. -/
theorem submatch_mid (u x v : GoString) (a b : Nat) (ha : a = u.length)
    (hb : b = u.length + x.length) : submatch (u ++ (x ++ v)) (some (a, b)) = x := by
  subst ha hb
  simp [submatch]

/-- A character of a string has a last occurrence. -/
theorem exists_last_split (c : Char) (s : GoString) (h : c ∈ s) :
    ∃ a e, s = a ++ c :: e ∧ c ∉ e := by
  induction s with
  | nil => simp at h
  | cons x s ih =>
    by_cases hs : c ∈ s
    · obtain ⟨a, e, hae, he⟩ := ih hs
      exact ⟨x :: a, e, by simp [hae], he⟩
    · rcases List.mem_cons.mp h with hx | hx
      · subst hx
        exact ⟨[], s, rfl, hs⟩
      · exact absurd hx hs

/-! ## `ExtractFileExtension` -/

/-- The permission pattern finds nothing in a string in which no `:` comes
after a `.`. -/
theorem findFrom_patternPermission_none (s : GoString)
    (h : ∀ a b, s = a ++ '.' :: b → ∀ c ∈ b, c ≠ ':') :
    findFrom patternPermission 0 s = none := by
  apply findFrom_none_intro
  intro u v huv
  have := matchAt_patternPermission_none (0 + u.length) v []
    (fun a b hab => h (u ++ a) b (by rw [huv, hab]; simp)) (by simp)
  simpa using this

/-- Neither pattern finds anything in a string without a `.`. -/
theorem findFrom_none_of_no_dot (s : GoString) (h : ∀ c ∈ s, c ≠ '.') :
    findFrom patternPermission 0 s = none ∧ findFrom patternFilename 0 s = none := by
  constructor
  · apply findFrom_patternPermission_none
    intro a b hab
    exact absurd rfl (h '.' (by rw [hab]; simp))
  · apply findFrom_none_intro
    intro u v huv
    have := matchAt_patternFilename_none (0 + u.length) v []
      (fun c hc => h c (by rw [huv]; simp [hc])) (by simp)
    simpa using this

/-- A specifier whose first line is `a.e:t`, with no `.` in `e` and no `:` in
`t`: the extension is `e`. -/
theorem extract_with_permission (a e t v : GoString)
    (ha : ∀ c ∈ a, c ≠ '\n') (he : ∀ c ∈ e, c ≠ '\n' ∧ c ≠ '.')
    (ht : ∀ c ∈ t, c ≠ '\n' ∧ c ≠ ':') (hv : ∀ c ∈ v.head?, c = '\n') :
    ExtractFileExtension (a ++ '.' :: (e ++ ':' :: (t ++ v))) = some e := by
  have hm := matchAt_patternPermission 0 a e t v ha he ht hv
  have hf := findFrom_of_matchAt _ _ _ _ hm
  simp only [ExtractFileExtension, FindStringSubmatch, hf]
  simp only [List.map, List.length_cons, List.length_nil, Nat.zero_add, gt_iff_lt,
    Nat.lt_add_left_iff_pos, Nat.zero_lt_succ, if_true]
  simp only [List.getElem?_cons_succ, List.getElem?_cons_zero, Option.some.injEq]
  have hs : a ++ '.' :: (e ++ ':' :: (t ++ v)) = (a ++ ['.']) ++ (e ++ (':' :: (t ++ v))) := by
    simp
  rw [hs]
  exact submatch_mid _ _ _ _ _ (by simp) (by simp)

/-- A filename whose first line is `a.e`, with no `.` in `e`, and in which the
permission pattern finds nothing: the extension is `e`. -/
theorem extract_without_permission (a e v : GoString)
    (ha : ∀ c ∈ a, c ≠ '\n') (he : ∀ c ∈ e, c ≠ '\n' ∧ c ≠ '.')
    (hv : ∀ c ∈ v.head?, c = '\n')
    (hperm : findFrom patternPermission 0 (a ++ '.' :: (e ++ v)) = none) :
    ExtractFileExtension (a ++ '.' :: (e ++ v)) = some e := by
  have hm := matchAt_patternFilename 0 a e v ha he hv
  have hf := findFrom_of_matchAt _ _ _ _ hm
  simp only [ExtractFileExtension, FindStringSubmatch, hf, hperm]
  simp only [List.map, List.length_nil, gt_iff_lt, Nat.lt_irrefl, if_false]
  simp only [List.getElem?_cons_succ, List.getElem?_cons_zero, Option.some.injEq]
  have hs : a ++ '.' :: (e ++ v) = (a ++ ['.']) ++ (e ++ v) := by simp
  rw [hs]
  exact submatch_mid _ _ _ _ _ (by simp) (by simp)

/-- The two ways `ExtractFileExtension` returns a token.  Either the
permission pattern matches, leftmost at the offset of `a`, on a line `a.e:t`
with no `.` in `e` and no `:` in `t`; or it matches nowhere and the filename
pattern matches, leftmost at the offset of `a`, on a line `a.e` with no `.` in
`e`.  The token is `e`. -/
theorem extract_cases (s tok : GoString) (h : ExtractFileExtension s = some tok) :
    (∃ u a t v, s = u ++ (a ++ '.' :: (tok ++ ':' :: (t ++ v))) ∧ (∀ c ∈ a, c ≠ '\n') ∧
      (∀ c ∈ tok, c ≠ '\n' ∧ c ≠ '.') ∧ (∀ c ∈ t, c ≠ '\n' ∧ c ≠ ':') ∧
      (∀ c ∈ v.head?, c = '\n') ∧
      ∀ u' v', s = u' ++ v' → u'.length < u.length →
        matchAt patternPermission (0 + u'.length) v' = none) ∨
    (findFrom patternPermission 0 s = none ∧
      ∃ u a v, s = u ++ (a ++ '.' :: (tok ++ v)) ∧ (∀ c ∈ a, c ≠ '\n') ∧
      (∀ c ∈ tok, c ≠ '\n' ∧ c ≠ '.') ∧ (∀ c ∈ v.head?, c = '\n') ∧
      ∀ u' v', s = u' ++ v' → u'.length < u.length →
        matchAt patternFilename (0 + u'.length) v' = none) := by
  cases hp : findFrom patternPermission 0 s with
  | some M =>
    left
    obtain ⟨u, r, hur, hM, hmin⟩ := findFrom_some_elim patternPermission s 0 M hp
    obtain ⟨a, e, t, v, hr, ha, he, ht, hv⟩ := matchAt_patternPermission_elim _ _ _ hM
    subst hr
    rw [matchAt_patternPermission (0 + u.length) a e t v ha he ht hv] at hM
    simp only [Option.some.injEq] at hM
    subst hM
    have htok : tok = e := by
      simp only [ExtractFileExtension, FindStringSubmatch, hp] at h
      simp only [List.map, List.length_cons, List.length_nil, Nat.zero_add, gt_iff_lt,
        Nat.lt_add_left_iff_pos, Nat.zero_lt_succ, if_true] at h
      simp only [List.getElem?_cons_succ, List.getElem?_cons_zero, Option.some.injEq] at h
      have hs : s = (u ++ a ++ ['.']) ++ (e ++ (':' :: (t ++ v))) := by rw [hur]; simp
      rw [hs] at h
      rw [submatch_mid _ _ _ _ _ (by simp; omega) (by simp; omega)] at h
      exact h.symm
    subst htok
    exact ⟨u, a, t, v, hur, ha, he, ht, hv, hmin⟩
  | none =>
    right
    refine ⟨rfl, ?_⟩
    cases hf : findFrom patternFilename 0 s with
    | none => simp [ExtractFileExtension, FindStringSubmatch, hp, hf] at h
    | some M =>
      obtain ⟨u, r, hur, hM, hmin⟩ := findFrom_some_elim patternFilename s 0 M hf
      obtain ⟨a, e, v, hr, ha, he, hv⟩ := matchAt_patternFilename_elim _ _ _ hM
      subst hr
      rw [matchAt_patternFilename (0 + u.length) a e v ha he hv] at hM
      simp only [Option.some.injEq] at hM
      subst hM
      have htok : tok = e := by
        simp only [ExtractFileExtension, FindStringSubmatch, hp, hf] at h
        simp only [List.map, List.length_nil, gt_iff_lt, Nat.lt_irrefl, if_false] at h
        simp only [List.getElem?_cons_succ, List.getElem?_cons_zero, Option.some.injEq] at h
        have hs : s = (u ++ a ++ ['.']) ++ (e ++ v) := by rw [hur]; simp
        rw [hs] at h
        rw [submatch_mid _ _ _ _ _ (by simp; omega) (by simp; omega)] at h
        exact h.symm
      subst htok
      exact ⟨u, a, v, hur, ha, he, hv, hmin⟩

/-- A one-line filename `a.e` with no `.` in `e` and no `:` after a `.`: the
extension is `e`. -/
theorem extract_single_line (a e : GoString) (he : ∀ c ∈ e, c ≠ '.')
    (hnl : ∀ c ∈ a ++ '.' :: e, c ≠ '\n')
    (hcolon : ∀ a' b, a ++ '.' :: e = a' ++ '.' :: b → ∀ c ∈ b, c ≠ ':') :
    ExtractFileExtension (a ++ '.' :: e) = some e := by
  have h := extract_without_permission a e []
    (fun c hc => hnl c (by simp [hc]))
    (fun c hc => ⟨hnl c (by simp [hc]), he c hc⟩) (by simp)
    (by simpa using findFrom_patternPermission_none (a ++ '.' :: e) hcolon)
  simpa using h

/-- `ExtractFileExtension` returns a token for every filename with a `.`. -/
theorem extract_some_of_dot (s : GoString) (h : '.' ∈ s) :
    ∃ tok, ExtractFileExtension s = some tok := by
  have hlen : ∀ re : Regex, numSubexp re = 1 → FindStringSubmatch re s ≠ [] →
      ∃ tok, (FindStringSubmatch re s)[1]? = some tok := by
    intro re hre hne
    rcases FindStringSubmatch_length re s with h0 | h2
    · exact absurd h0 hne
    · rw [hre] at h2
      exact ⟨(FindStringSubmatch re s)[1], List.getElem?_eq_getElem (by omega)⟩
  by_cases hp : (FindStringSubmatch patternPermission s).length > 0
  · simp only [ExtractFileExtension, hp, if_true]
    exact hlen patternPermission rfl (by intro h0; rw [h0] at hp; simp at hp)
  · simp only [ExtractFileExtension, hp, if_false]
    apply hlen patternFilename rfl
    obtain ⟨a, e, hae, he⟩ := exists_last_split '.' s h
    have hm := matchAt_patternFilename (0 + a.length) [] (e.takeWhile anyChar)
      (e.dropWhile anyChar) (by simp)
      (fun c hc => ⟨(anyChar_iff c).mp (List.mem_takeWhile_imp hc),
        fun hdot => he (hdot ▸ (List.takeWhile_sublist anyChar).subset hc)⟩)
      (by
        intro c hc
        cases hd : e.dropWhile anyChar with
        | nil => rw [hd] at hc; simp at hc
        | cons x r =>
          rw [hd] at hc
          simp at hc
          subst hc
          have := List.head_dropWhile_not anyChar e (by rw [hd]; simp)
          simp only [hd, List.head_cons] at this
          by_contra hne
          exact absurd ((anyChar_iff x).mpr hne) (by simpa using this))
    simp only [List.nil_append, List.takeWhile_append_dropWhile] at hm
    intro hnil
    cases hf : findFrom patternFilename 0 s with
    | none =>
      have := findFrom_none_elim patternFilename s 0 hf a ('.' :: e) hae
      rw [this] at hm
      simp at hm
    | some M =>
      obtain ⟨u, v, _, hM, _⟩ := findFrom_some_elim patternFilename s 0 M hf
      have hl := matchAt_caps_length _ _ _ _ hM
      simp [FindStringSubmatch, hf] at hnil
      rw [hnil] at hl
      simp at hl

/-! ## `ExtractBasenameAndPermission` -/

theorem permSuffix_length (sfx : GoString) (h : sfx ∈ permSuffixes) : sfx.length = 3 := by
  simp only [permSuffixes, List.mem_cons, List.mem_nil_iff, or_false] at h
  rcases h with h | h <;> subst h <;> rfl

theorem permSuffix_ne_nil (sfx : GoString) (h : sfx ∈ permSuffixes) : sfx ≠ [] := by
  intro hn
  have := permSuffix_length sfx h
  rw [hn] at this
  simp at this

theorem suffixAt_iff (r : GoString) :
    suffixAt r = true ↔ ∃ sfx v, sfx ∈ permSuffixes ∧ r = sfx ++ v := by
  simp only [suffixAt, List.any_eq_true, List.isPrefixOf_iff_prefix]
  constructor
  · rintro ⟨sfx, hsfx, v, hv⟩
    exact ⟨sfx, v, hsfx, hv.symm⟩
  · rintro ⟨sfx, v, hsfx, hv⟩
    exact ⟨sfx, hsfx, v, hv.symm⟩

/-- The scan decides `HasPermission`. -/
theorem scanPermission_iff (s : GoString) : scanPermission s = true ↔ HasPermission s := by
  induction s with
  | nil =>
    simp only [scanPermission]
    constructor
    · intro h; exact absurd h (by simp)
    · rintro ⟨u, c, sfx, v, h, _⟩
      simp at h
  | cons x s ih =>
    simp only [scanPermission, Bool.or_eq_true, Bool.and_eq_true, suffixAt_iff, ih]
    constructor
    · rintro (⟨hx, sfx, v, hsfx, hv⟩ | ⟨u, c, sfx, v, hs, hc, hsfx⟩)
      · exact ⟨[], x, sfx, v, by simp [hv], hx, hsfx⟩
      · exact ⟨x :: u, c, sfx, v, by simp [hs], hc, hsfx⟩
    · rintro ⟨u, c, sfx, v, hs, hc, hsfx⟩
      cases u with
      | nil =>
        simp at hs
        left
        exact ⟨hs.1 ▸ hc, sfx, v, hsfx, hs.2⟩
      | cons y u =>
        simp at hs
        right
        exact ⟨u, c, sfx, v, hs.2, hc, hsfx⟩

/-- Without a match the whole path is the basename. -/
theorem extractBasename_of_none (s : GoString) (h : findFrom pathPattern 0 s = none) :
    ExtractBasenameAndPermission s = (s, []) := by
  simp [ExtractBasenameAndPermission, FindStringSubmatch, h]

/-- With a match the name group and the suffix group are returned. -/
theorem extractBasename_of_some (u w sfx v : GoString) (hsfx : sfx ∈ permSuffixes)
    (h : findFrom pathPattern 0 (u ++ (w ++ (sfx ++ v))) =
      some ⟨0 + u.length + w.length + 3, v,
        [some (0 + u.length, 0 + u.length + w.length + 3),
         some (0 + u.length, 0 + u.length + w.length),
         some (0 + u.length + w.length, 0 + u.length + w.length + 3),
         some (0 + u.length + w.length + 1, 0 + u.length + w.length + 3)]⟩) :
    ExtractBasenameAndPermission (u ++ (w ++ (sfx ++ v))) = (w, sfx) := by
  have h1 : submatch (u ++ (w ++ (sfx ++ v))) (some (0 + u.length, 0 + u.length + w.length)) = w :=
    submatch_mid _ _ _ _ _ (by simp) (by simp)
  have h2 : submatch (u ++ (w ++ (sfx ++ v)))
      (some (0 + u.length + w.length, 0 + u.length + w.length + 3)) = sfx := by
    have e : u ++ (w ++ (sfx ++ v)) = (u ++ w) ++ (sfx ++ v) := by simp
    rw [e]
    exact submatch_mid _ _ _ _ _ (by simp) (by simp [permSuffix_length sfx hsfx])
  simp only [Nat.zero_add] at h1 h2
  simp only [ExtractBasenameAndPermission, FindStringSubmatch, h]
  simp [h1, h2]

/-- The search with the path pattern fails exactly on the inputs without a
name character immediately followed by a permission suffix. -/
theorem findFrom_pathPattern_none_iff (s : GoString) :
    findFrom pathPattern 0 s = none ↔ ¬ HasPermission s := by
  constructor
  · rintro h ⟨u, c, sfx, v, hs, hc, hsfx⟩
    have hm := matchAt_pathPattern (0 + u.length) [c] sfx v (by simp)
      (by intro x hx; simp at hx; subst hx; exact hc) hsfx
    have := findFrom_none_elim pathPattern s 0 h u (c :: (sfx ++ v)) hs
    rw [show [c] ++ (sfx ++ v) = c :: (sfx ++ v) from rfl, this] at hm
    simp at hm
  · intro h
    cases hf : findFrom pathPattern 0 s with
    | none => rfl
    | some M =>
      exfalso
      obtain ⟨u, r, hur, hM, _⟩ := findFrom_some_elim pathPattern s 0 M hf
      obtain ⟨w, sfx, v, hr, hne, hw, hsfx, _⟩ := matchAt_pathPattern_elim _ _ _ hM
      obtain ⟨w', c, hwc⟩ : ∃ w' c, w = w' ++ [c] := by
        rcases List.eq_nil_or_concat w with h0 | ⟨w', c, h1⟩
        · exact absurd h0 hne
        · exact ⟨w', c, by simpa using h1⟩
      exact h ⟨u ++ w', c, sfx, v, by rw [hur, hr, hwc]; simp, hw c (by simp [hwc]), hsfx⟩

/-- The two outcomes of `ExtractBasenameAndPermission`: the whole input and no
permission when no name character is immediately followed by a permission
suffix; otherwise the leftmost run of name characters that a permission suffix
follows, and that suffix. -/
theorem extractBasename_cases (s : GoString) :
    (¬ HasPermission s ∧ ExtractBasenameAndPermission s = (s, [])) ∨
    (∃ u w sfx v, s = u ++ (w ++ (sfx ++ v)) ∧ w ≠ [] ∧ (∀ c ∈ w, isNameChar c = true) ∧
      sfx ∈ permSuffixes ∧ ExtractBasenameAndPermission s = (w, sfx) ∧
      ∀ u' v', s = u' ++ v' → u'.length < u.length →
        matchAt pathPattern (0 + u'.length) v' = none) := by
  cases hf : findFrom pathPattern 0 s with
  | none =>
    left
    exact ⟨(findFrom_pathPattern_none_iff s).mp hf, extractBasename_of_none s hf⟩
  | some M =>
    right
    obtain ⟨u, r, hur, hM, hmin⟩ := findFrom_some_elim pathPattern s 0 M hf
    obtain ⟨w, sfx, v, hr, hne, hw, hsfx, hMeq⟩ := matchAt_pathPattern_elim _ _ _ hM
    refine ⟨u, w, sfx, v, by rw [hur, hr], hne, hw, hsfx, ?_, hmin⟩
    have hs : s = u ++ (w ++ (sfx ++ v)) := by rw [hur, hr]
    rw [hs]
    apply extractBasename_of_some u w sfx v hsfx
    rw [← hs, hf, hMeq]

/-- A run of name characters followed by a permission suffix, at the start of
the input. -/
theorem extractBasename_name_suffix (w sfx v : GoString) (hne : w ≠ [])
    (hw : ∀ c ∈ w, isNameChar c = true) (hsfx : sfx ∈ permSuffixes) :
    ExtractBasenameAndPermission (w ++ (sfx ++ v)) = (w, sfx) := by
  have hm := matchAt_pathPattern 0 w sfx v hne hw hsfx
  have hf := findFrom_of_matchAt _ _ _ _ hm
  have := extractBasename_of_some [] w sfx v hsfx (by simpa using hf)
  simpa using this

/-- A string of name characters holds no permission suffix. -/
theorem not_hasPermission_of_name (w : GoString) (hw : ∀ c ∈ w, isNameChar c = true) :
    ¬ HasPermission w := by
  rintro ⟨u, c, sfx, v, hs, _, hsfx⟩
  have hcolon : ':' ∈ w := by
    rw [hs]
    simp only [permSuffixes, List.mem_cons, List.mem_nil_iff, or_false] at hsfx
    rcases hsfx with h | h <;> subst h <;> simp
  have := hw ':' hcolon
  rw [isNameChar_colon] at this
  exact Bool.noConfusion this

/-- No name character with a permission suffix right after it ends before the
run that the leftmost match takes. -/
theorem candidate_not_before (u w sfx v u' sfx' v' : GoString) (c : Char)
    (hw : ∀ x ∈ w, isNameChar x = true)
    (hmin : ∀ u1 v1, u ++ (w ++ (sfx ++ v)) = u1 ++ v1 → u1.length < u.length →
      matchAt pathPattern (0 + u1.length) v1 = none)
    (hs : u ++ (w ++ (sfx ++ v)) = u' ++ c :: (sfx' ++ v')) (hc : isNameChar c = true)
    (hsfx' : sfx' ∈ permSuffixes) :
    u.length + w.length ≤ u'.length + 1 := by
  by_contra hlt
  by_cases h1 : u'.length < u.length
  · have hnone := hmin u' (c :: (sfx' ++ v')) hs h1
    have hsome := matchAt_pathPattern (0 + u'.length) [c] sfx' v' (by simp)
      (by intro x hx; simp at hx; subst hx; exact hc) hsfx'
    rw [show [c] ++ (sfx' ++ v') = c :: (sfx' ++ v') from rfl, hnone] at hsome
    simp at hsome
  · have hL : (u ++ (w ++ (sfx ++ v)))[u'.length + 1]? = w[u'.length + 1 - u.length]? := by
      rw [List.getElem?_append_right (by omega), List.getElem?_append_left (by omega)]
    have hR : (u' ++ c :: (sfx' ++ v'))[u'.length + 1]? = some ':' := by
      rw [List.getElem?_append_right (by omega)]
      simp only [permSuffixes, List.mem_cons, List.mem_nil_iff, or_false] at hsfx'
      rcases hsfx' with h | h <;> subst h <;> simp
    rw [hs, hR] at hL
    have hmem : ':' ∈ w := List.getElem?_mem hL.symm
    exact absurd (hw ':' hmem) (by decide)

/-- The run that the leftmost match takes cannot be extended to the left. -/
theorem run_starts_at_boundary (u w sfx v : GoString) (hw : ∀ x ∈ w, isNameChar x = true)
    (hsfx : sfx ∈ permSuffixes)
    (hmin : ∀ u1 v1, u ++ (w ++ (sfx ++ v)) = u1 ++ v1 → u1.length < u.length →
      matchAt pathPattern (0 + u1.length) v1 = none) :
    ∀ c ∈ u.getLast?, isNameChar c = false := by
  intro c hc
  by_contra hcls
  have hcls' : isNameChar c = true := by simpa using hcls
  obtain ⟨u0, hu0⟩ : ∃ u0, u = u0 ++ [c] := by
    rcases List.eq_nil_or_concat u with h0 | ⟨u0, x, h1⟩
    · rw [h0] at hc; simp at hc
    · rw [h1] at hc
      simp at hc
      exact ⟨u0, by rw [h1, hc]; simp⟩
  have hnone := hmin u0 ((c :: w) ++ (sfx ++ v)) (by rw [hu0]; simp) (by rw [hu0]; simp)
  have hsome := matchAt_pathPattern (0 + u0.length) (c :: w) sfx v (by simp)
    (by
      intro x hx
      rcases List.mem_cons.mp hx with hx | hx
      · subst hx; exact hcls'
      · exact hw x hx) hsfx
  rw [hnone] at hsome
  simp at hsome

/-- The basename and the permission make up the whole input exactly when the
input holds no permission suffix after a name character, or is a run of name
characters followed by a permission suffix. -/
theorem basename_append_permission_iff (e : GoString) :
    (ExtractBasenameAndPermission e).1 ++ (ExtractBasenameAndPermission e).2 = e ↔
      (¬ HasPermission e ∨
        ∃ w sfx, e = w ++ sfx ∧ w ≠ [] ∧ (∀ c ∈ w, isNameChar c = true) ∧
          sfx ∈ permSuffixes) := by
  constructor
  · intro h
    rcases extractBasename_cases e with ⟨hn, _⟩ | ⟨u, w, sfx, v, hs, hne, hw, hsfx, he, _⟩
    · exact Or.inl hn
    · right
      rw [he] at h
      have hlen := congrArg List.length h
      rw [hs] at hlen
      simp only [List.length_append] at hlen
      have hu : u = [] := List.eq_nil_of_length_eq_zero (by omega)
      have hv : v = [] := List.eq_nil_of_length_eq_zero (by omega)
      subst hu hv
      exact ⟨w, sfx, by simpa using hs, hne, hw, hsfx⟩
  · rintro (hn | ⟨w, sfx, hs, hne, hw, hsfx⟩)
    · rw [extractBasename_of_none e ((findFrom_pathPattern_none_iff e).mpr hn)]
      simp
    · have := extractBasename_name_suffix w sfx [] hne hw hsfx
      simp only [List.append_nil] at this
      rw [hs, this]

/-! ## The invocation builder -/

/-- A loop that appends `f x` for each `x` builds the concatenation. -/
theorem foldl_append_eq_flatMap {α β : Type} (f : α → List β) (l : List α) :
    ∀ init : List β, l.foldl (fun acc x => acc ++ f x) init = init ++ l.flatMap f := by
  induction l with
  | nil => intro init; simp
  | cons x l ih => intro init; simp [List.foldl, ih]

/-- One pair per entry: twice as many elements as entries. -/
theorem length_flatMap_pair {α β : Type} (f g : α → β) (l : List α) :
    (l.flatMap (fun e => [f e, g e])).length = 2 * l.length := by
  induction l with
  | nil => rfl
  | cons x l ih => simp [ih]; omega

/-- When validation passes, `main` runs the container for the image of the
extension of the first source. -/
theorem main_of_valid (abs : GoString → GoString) (cli : CLI) (source : GoString)
    (others : List GoString) (ext : GoString)
    (hsrc : cli.options .Source = source :: others) (hver : cli.options .VersionFlag = [])
    (hhelp : cli.options .HelpFlag = []) (htd : (cli.options .TargetDir).length ≤ 1)
    (hext : ExtractFileExtension source = some ext) :
    main abs true true cli = RunDexecContainer abs (LookupExtensionByImage ext) cli.options := by
  have hv : validate true true cli = ([], some true) := by
    simp only [validate, hsrc, hver, hhelp]
    simp
    omega
  simp only [main, hv, hsrc, hext]
  simp

/-- The keys of the table contain no `.`, no `:` and no line feed, and each
is mapped to its image. -/
theorem innerMap_keys :
    ∀ kv ∈ innerMap,
      (∀ c ∈ String.toList (Prod.fst kv), c ≠ '.' ∧ c ≠ ':' ∧ c ≠ '\n') ∧
      LookupExtensionByImage (String.toList (Prod.fst kv)) = String.toList (Prod.snd kv) := by
  decide

/-! ## The claims -/

/-- C1: `LookupExtensionByImage` returns the documented image for each of the
24 keys of the table and the empty string for every other key (the empty key
and the case variant `PY` among them), so its result is non-empty exactly for
the keys of the table. -/
theorem lookup_matches_table :
    (∀ kv ∈ [("c", "c"), ("clj", "clojure"), ("coffee", "coffee"), ("cpp", "cpp"),
        ("cs", "csharp"), ("d", "d"), ("erl", "erlang"), ("fs", "fsharp"),
        ("go", "go"), ("groovy", "groovy"), ("hs", "haskell"), ("java", "java"),
        ("lisp", "lisp"), ("js", "node"), ("m", "objc"), ("ml", "ocaml"),
        ("pl", "perl"), ("php", "php"), ("py", "python"), ("rkt", "racket"),
        ("rb", "ruby"), ("rs", "rust"), ("scala", "scala"), ("sh", "bash")],
      LookupExtensionByImage (String.toList (Prod.fst kv)) = String.toList (Prod.snd kv)) ∧
    (∀ key : GoString,
      key ∉ (["c", "clj", "coffee", "cpp", "cs", "d", "erl", "fs", "go", "groovy", "hs",
        "java", "lisp", "js", "m", "ml", "pl", "php", "py", "rkt", "rb", "rs", "scala",
        "sh"].map String.toList) →
      LookupExtensionByImage key = []) ∧
    (∀ key : GoString,
      LookupExtensionByImage key ≠ [] ↔
      key ∈ (["c", "clj", "coffee", "cpp", "cs", "d", "erl", "fs", "go", "groovy", "hs",
        "java", "lisp", "js", "m", "ml", "pl", "php", "py", "rkt", "rb", "rs", "scala",
        "sh"].map String.toList)) ∧
    LookupExtensionByImage [] = [] ∧
    LookupExtensionByImage ['P', 'Y'] = [] := by
  have hno : ∀ key : GoString,
      key ∉ (["c", "clj", "coffee", "cpp", "cs", "d", "erl", "fs", "go", "groovy", "hs",
        "java", "lisp", "js", "m", "ml", "pl", "php", "py", "rkt", "rb", "rs", "scala",
        "sh"].map String.toList) →
      LookupExtensionByImage key = [] := by
    intro key hkey
    simp only [List.map, List.mem_cons, List.mem_nil_iff, or_false, not_or, String.toList] at hkey
    simp only [LookupExtensionByImage, innerMap, mapIndex, String.toList]
    simp only [hkey, if_false]
  refine ⟨by decide, hno, ?_, by decide, by decide⟩
  intro key
  constructor
  · intro h
    by_contra hc
    exact h (hno key hc)
  · intro h
    simp only [List.map, List.mem_cons, List.mem_nil_iff, or_false] at h
    rcases h with h | h | h | h | h | h | h | h | h | h | h | h | h | h | h | h | h | h | h |
      h | h | h | h | h <;> subst h <;> decide

/-- C2, as stated, fails: with the prefix `a.b:c` followed by a line feed and
the token `py`, the permission pattern matches on the first line and the
result is `b`, not `py`. -/
theorem extension_with_suffix_line_break :
    ('.' ∉ ['p', 'y'] ∧ ':' ∉ ['p', 'y'] ∧ '\n' ∉ ['p', 'y']) ∧
    ExtractFileExtension (['a', '.', 'b', ':', 'c', '\n'] ++ ['.'] ++ ['p', 'y'] ++ [':', 'r', 'o'])
      = some ['b'] ∧
    ExtractFileExtension (['a', '.', 'b', ':', 'c', '\n'] ++ ['.'] ++ ['p', 'y'] ++ [':', 'r', 'o'])
      ≠ some ['p', 'y'] := by
  decide

/-- C2, amended: for every prefix `p` without a line feed and every token `ext`
without `.`, `:` and line feed, `ExtractFileExtension` returns exactly `ext`
on `p.ext:ro` and on `p.ext:rw`. -/
theorem extension_with_suffix (p ext : GoString) (hp : '\n' ∉ p)
    (hext : '.' ∉ ext ∧ ':' ∉ ext ∧ '\n' ∉ ext) :
    ExtractFileExtension (p ++ ['.'] ++ ext ++ [':', 'r', 'o']) = some ext ∧
    ExtractFileExtension (p ++ ['.'] ++ ext ++ [':', 'r', 'w']) = some ext := by
  have key : ∀ x : Char, x ≠ '\n' → x ≠ ':' →
      ExtractFileExtension (p ++ ['.'] ++ ext ++ [':', 'r', x]) = some ext := by
    intro x hx1 hx2
    have h := extract_with_permission p ext ['r', x] []
      (fun c hc hn => hp (hn ▸ hc))
      (fun c hc => ⟨fun hn => hext.2.2 (hn ▸ hc), fun hn => hext.1 (hn ▸ hc)⟩)
      (by
        intro c hc
        simp only [List.mem_cons, List.mem_nil_iff, or_false] at hc
        rcases hc with hc | hc
        · subst hc; exact ⟨by decide, by decide⟩
        · subst hc; exact ⟨hx1, hx2⟩)
      (by simp)
    simpa using h
  exact ⟨key 'o' (by decide) (by decide), key 'w' (by decide) (by decide)⟩

/-- C2, amended, at the prefix `main` and the token `py`. -/
theorem extension_with_suffix_witness :
    ExtractFileExtension (['m', 'a', 'i', 'n'] ++ ['.'] ++ ['p', 'y'] ++ [':', 'r', 'o'])
      = some ['p', 'y'] ∧
    ExtractFileExtension (['m', 'a', 'i', 'n'] ++ ['.'] ++ ['p', 'y'] ++ [':', 'r', 'w'])
      = some ['p', 'y'] :=
  extension_with_suffix ['m', 'a', 'i', 'n'] ['p', 'y'] (by decide) (by decide)

/-- C3: for a filename with a `.`, without a line feed and without a `:` after
a `.`, `ExtractFileExtension` returns exactly what follows the last `.`: when
the filename is `a.e` with no `.` in `e`, the result is `e`. -/
theorem extension_after_last_dot (filename a e : GoString)
    (hsplit : filename = a ++ '.' :: e) (hlast : '.' ∉ e) (hnl : '\n' ∉ filename)
    (hcolon : ∀ a' b, filename = a' ++ '.' :: b → ':' ∉ b) :
    ExtractFileExtension filename = some e := by
  subst hsplit
  exact extract_single_line a e (fun c hc hn => hlast (hn ▸ hc))
    (fun c hc hn => hnl (hn ▸ hc))
    (fun a' b hab c hc hn => hcolon a' b hab (hn ▸ hc))

/-- C3 at the filename `a.tar.gz`. -/
theorem extension_after_last_dot_witness :
    ExtractFileExtension ['a', '.', 't', 'a', 'r', '.', 'g', 'z'] = some ['g', 'z'] :=
  extension_after_last_dot ['a', '.', 't', 'a', 'r', '.', 'g', 'z'] ['a', '.', 't', 'a', 'r']
    ['g', 'z'] (by decide) (by decide) (by decide)
    (by
      intro a' b hab hmem
      have hsub : b <:+ ['a', '.', 't', 'a', 'r', '.', 'g', 'z'] :=
        ⟨a' ++ ['.'], by rw [hab]; simp⟩
      have : ':' ∈ ['a', '.', 't', 'a', 'r', '.', 'g', 'z'] := hsub.subset hmem
      exact absurd this (by decide))

/-- C9: `ExtractFileExtension` returns a token exactly for the filenames that
contain a `.`; it fails exactly when both matches are empty, element 1 of the
empty match being out of range. -/
theorem extension_defined_iff_dot (filename : GoString) :
    ((∃ tok, ExtractFileExtension filename = some tok) ↔ '.' ∈ filename) ∧
    (ExtractFileExtension filename = none ↔ '.' ∉ filename) ∧
    ('.' ∉ filename ↔
      FindStringSubmatch patternPermission filename = [] ∧
      FindStringSubmatch patternFilename filename = []) := by
  have hnone : '.' ∉ filename →
      FindStringSubmatch patternPermission filename = [] ∧
      FindStringSubmatch patternFilename filename = [] := by
    intro h
    obtain ⟨h1, h2⟩ := findFrom_none_of_no_dot filename (fun c hc hn => h (hn ▸ hc))
    simp [FindStringSubmatch, h1, h2]
  have hfail : FindStringSubmatch patternPermission filename = [] ∧
      FindStringSubmatch patternFilename filename = [] →
      ExtractFileExtension filename = none := by
    rintro ⟨h1, h2⟩
    simp [ExtractFileExtension, h1, h2]
  have hdot : '.' ∈ filename → ∃ tok, ExtractFileExtension filename = some tok :=
    extract_some_of_dot filename
  refine ⟨⟨?_, hdot⟩, ⟨?_, fun h => hfail (hnone h)⟩, ⟨hnone, ?_⟩⟩
  · rintro ⟨tok, htok⟩
    by_contra h
    rw [hfail (hnone h)] at htok
    simp at htok
  · intro h hd
    obtain ⟨tok, htok⟩ := hdot hd
    rw [h] at htok
    simp at htok
  · intro h hd
    obtain ⟨tok, htok⟩ := hdot hd
    rw [hfail h] at htok
    simp at htok

/-- C4: for a non-empty basename of characters of `[A-Za-z0-9_.-]`, parsing
the basename gives the basename and the empty permission, and parsing the
basename followed by `:ro` or `:rw` gives the basename and the second group,
colon included, as the permission. -/
theorem basename_round_trip (basename : GoString) (hne : basename ≠ [])
    (hcls : ∀ c ∈ basename, isNameChar c = true) :
    ExtractBasenameAndPermission basename = (basename, []) ∧
    ExtractBasenameAndPermission (basename ++ [':', 'r', 'o']) = (basename, [':', 'r', 'o']) ∧
    ExtractBasenameAndPermission (basename ++ [':', 'r', 'w']) = (basename, [':', 'r', 'w']) := by
  refine ⟨?_, ?_, ?_⟩
  · exact extractBasename_of_none basename
      ((findFrom_pathPattern_none_iff basename).mpr (not_hasPermission_of_name basename hcls))
  · have := extractBasename_name_suffix basename [':', 'r', 'o'] [] hne hcls
      (by simp [permSuffixes])
    simpa using this
  · have := extractBasename_name_suffix basename [':', 'r', 'w'] [] hne hcls
      (by simp [permSuffixes])
    simpa using this

/-- C4 at the basename `lib.rs`. -/
theorem basename_round_trip_witness :
    ExtractBasenameAndPermission ['l', 'i', 'b', '.', 'r', 's'] = (['l', 'i', 'b', '.', 'r', 's'], []) ∧
    ExtractBasenameAndPermission (['l', 'i', 'b', '.', 'r', 's'] ++ [':', 'r', 'o']) =
      (['l', 'i', 'b', '.', 'r', 's'], [':', 'r', 'o']) ∧
    ExtractBasenameAndPermission (['l', 'i', 'b', '.', 'r', 's'] ++ [':', 'r', 'w']) =
      (['l', 'i', 'b', '.', 'r', 's'], [':', 'r', 'w']) :=
  basename_round_trip ['l', 'i', 'b', '.', 'r', 's'] (by decide) (by decide)

/-- C5, as stated, fails: `dir/sub.py:ro` has the character `/` outside the
class in its name part, and yet the parse is `sub.py` with the permission
`:ro`, not the whole input with the empty permission. -/
theorem degraded_parse_counterexample :
    isNameChar '/' = false ∧
    ExtractBasenameAndPermission
        ['d', 'i', 'r', '/', 's', 'u', 'b', '.', 'p', 'y', ':', 'r', 'o'] =
      (['s', 'u', 'b', '.', 'p', 'y'], [':', 'r', 'o']) ∧
    ExtractBasenameAndPermission
        ['d', 'i', 'r', '/', 's', 'u', 'b', '.', 'p', 'y', ':', 'r', 'o'] ≠
      (['d', 'i', 'r', '/', 's', 'u', 'b', '.', 'p', 'y', ':', 'r', 'o'], []) := by
  decide

/-- C5, amended: `ExtractBasenameAndPermission` degrades to the whole input
and the empty permission exactly when no character of `[A-Za-z0-9_.-]` is
immediately followed by `:ro` or `:rw` in the input, as in `dir/:ro`; a
character outside the class elsewhere in the name part does not cause it. -/
theorem degraded_parse_iff (path : GoString) :
    (ExtractBasenameAndPermission path = (path, []) ↔ ¬ HasPermission path) ∧
    (HasPermission path ↔ scanPermission path = true) ∧
    ExtractBasenameAndPermission ['d', 'i', 'r', '/', ':', 'r', 'o'] =
      (['d', 'i', 'r', '/', ':', 'r', 'o'], []) := by
  refine ⟨⟨?_, ?_⟩, (scanPermission_iff path).symm, by decide⟩
  · intro h hp
    rcases extractBasename_cases path with ⟨hn, _⟩ | ⟨u, w, sfx, v, _, _, _, hsfx, he, _⟩
    · exact hn hp
    · rw [he] at h
      exact permSuffix_ne_nil sfx hsfx (congrArg Prod.snd h)
  · intro h
    exact extractBasename_of_none path ((findFrom_pathPattern_none_iff path).mpr h)

/-- C6: the docker arguments that `RunDexecContainer` passes on are the `-v`
pairs of the sources, in order, followed by those of the includes, in order;
the host side is the absolute directory and the parsed basename, the container
side the build root and the raw entry.  There are two arguments per entry. -/
theorem mount_arguments (abs : GoString → GoString) (dexecImage : GoString) (options : Options) :
    ∃ absPath : GoString,
      absPath = abs (match options .TargetDir with
        | [] => ['.']
        | t :: _ => t) ∧
      dockerArgsOf absPath options =
        (options .Source).flatMap (fun e =>
          [['-', 'v'], absPath ++ ['/'] ++ (ExtractBasenameAndPermission e).1 ++ [':'] ++
            String.toList "/tmp/dexec/build" ++ ['/'] ++ e]) ++
        (options .Include).flatMap (fun e =>
          [['-', 'v'], absPath ++ ['/'] ++ (ExtractBasenameAndPermission e).1 ++ [':'] ++
            String.toList "/tmp/dexec/build" ++ ['/'] ++ e]) ∧
      (dockerArgsOf absPath options).length =
        2 * ((options .Source).length + (options .Include).length) ∧
      RunDexecContainer abs dexecImage options =
        (if (options .UpdateFlag).length > 0
          then [Effect.DockerPull (String.toList "dexec/" ++ dexecImage)] else []) ++
        [Effect.RunAnonymousContainer (String.toList "dexec/" ++ dexecImage)
          (dockerArgsOf absPath options) (entrypointArgsOf options)] := by
  have hargs : ∀ absPath : GoString, dockerArgsOf absPath options =
      (options .Source).flatMap (fun e =>
        [['-', 'v'], absPath ++ ['/'] ++ (ExtractBasenameAndPermission e).1 ++ [':'] ++
          String.toList "/tmp/dexec/build" ++ ['/'] ++ e]) ++
      (options .Include).flatMap (fun e =>
        [['-', 'v'], absPath ++ ['/'] ++ (ExtractBasenameAndPermission e).1 ++ [':'] ++
          String.toList "/tmp/dexec/build" ++ ['/'] ++ e]) := by
    intro absPath
    simp only [dockerArgsOf, foldl_append_eq_flatMap, List.nil_append, List.flatMap_append]
    rfl
  refine ⟨_, rfl, hargs _, ?_, ?_⟩
  · rw [hargs]
    rw [List.length_append, length_flatMap_pair, length_flatMap_pair]
    omega
  · cases h : options .TargetDir <;> simp [RunDexecContainer, dexecImageTemplate, h]

/-- C7: the entrypoint arguments that `RunDexecContainer` hands to the
container launch are the basenames of the sources, in order, then `-b` and the
value for each build argument, then `-a` and the value for each run argument;
with the sources `main.py`, no build argument and the argument `--flag` the
launch gets `main.py -a --flag`. -/
theorem entrypoint_arguments (abs : GoString → GoString) (dexecImage : GoString)
    (options : Options) :
    RunDexecContainer abs dexecImage options =
      (if (options .UpdateFlag).length > 0
        then [Effect.DockerPull (String.toList "dexec/" ++ dexecImage)] else []) ++
      [Effect.RunAnonymousContainer (String.toList "dexec/" ++ dexecImage)
        (dockerArgsOf (abs (match options .TargetDir with
          | [] => ['.']
          | t :: _ => t)) options)
        ((options .Source).map (fun e => (ExtractBasenameAndPermission e).1) ++
          (options .BuildArg).flatMap (fun b => [['-', 'b'], b]) ++
          (options .Arg).flatMap (fun a => [['-', 'a'], a]))] ∧
    entrypointArgsOf options =
      (options .Source).map (fun e => (ExtractBasenameAndPermission e).1) ++
      (options .BuildArg).flatMap (fun b => [['-', 'b'], b]) ++
      (options .Arg).flatMap (fun a => [['-', 'a'], a]) ∧
    RunDexecContainer abs (String.toList "python") (fun o => match o with
      | .Source => [String.toList "main.py"]
      | .Arg => [String.toList "--flag"]
      | _ => []) =
      [Effect.RunAnonymousContainer (String.toList "dexec/python")
        [['-', 'v'], abs ['.'] ++ String.toList "/main.py:/tmp/dexec/build/main.py"]
        [String.toList "main.py", ['-', 'a'], String.toList "--flag"]] ∧
    entrypointArgsOf (fun o => match o with
      | .Source => [String.toList "main.py"]
      | .Arg => [String.toList "--flag"]
      | _ => []) = [String.toList "main.py", ['-', 'a'], String.toList "--flag"] := by
  have hsrc : sourceBasenamesOf options =
      (options .Source).map (fun e => (ExtractBasenameAndPermission e).1) := by
    simp only [sourceBasenamesOf]
    rw [foldl_append_eq_flatMap (fun e => [(ExtractBasenameAndPermission e).1])]
    simp [List.flatMap_def]
    induction options .Source with
    | nil => rfl
    | cons x l ih => simp [ih]
  have hpre : ∀ (values : List GoString) (flag : GoString),
      AddPrefix values flag = values.flatMap (fun v => [flag, v]) := by
    intro values flag
    simp only [AddPrefix]
    rw [foldl_append_eq_flatMap (fun v => [flag, v])]
    simp
  have hentry : entrypointArgsOf options =
      (options .Source).map (fun e => (ExtractBasenameAndPermission e).1) ++
      (options .BuildArg).flatMap (fun b => [['-', 'b'], b]) ++
      (options .Arg).flatMap (fun a => [['-', 'a'], a]) := by
    simp only [entrypointArgsOf, JoinStringSlices, List.foldl, hsrc, hpre, List.nil_append]
    rfl
  have hbase : ExtractBasenameAndPermission ['m', 'a', 'i', 'n', '.', 'p', 'y'] =
      (['m', 'a', 'i', 'n', '.', 'p', 'y'], []) := by decide
  refine ⟨?_, hentry, ?_, by decide⟩
  · rw [← hentry]
    cases h : options .TargetDir <;> simp [RunDexecContainer, dexecImageTemplate, h]
  · simp [RunDexecContainer, dexecImageTemplate, dockerArgsOf, entrypointArgsOf,
      sourceBasenamesOf, AddPrefix, JoinStringSlices, dexecVolumeTemplate, dexecPath, hbase]

/-- C8, as stated, fails: for the single source `file.xyz` the extension
`xyz` is unmapped, and `main` emits a container launch all the same, with the
image reference `dexec/`, the mount of the source and the entrypoint vector. -/
theorem unmapped_extension_launches :
    ExtractFileExtension (String.toList "file.xyz") = some (String.toList "xyz") ∧
    LookupExtensionByImage (String.toList "xyz") = [] ∧
    main (fun _ => String.toList "/work") true true
        ⟨String.toList "dexec", fun o => match o with
          | .Source => [String.toList "file.xyz"]
          | _ => []⟩ =
      [Effect.RunAnonymousContainer (String.toList "dexec/")
        [String.toList "-v", String.toList "/work/file.xyz:/tmp/dexec/build/file.xyz"]
        [String.toList "file.xyz"]] := by
  decide

/-- C8, amended: when the extension of the first source is unmapped, `main`
still calls `RunDexecContainer`, with the empty identifier: a container launch
is emitted with the image reference `dexec/` and the mounts and entrypoint
vector built as usual, and no failure is signalled. -/
theorem unmapped_extension_not_refused (abs : GoString → GoString) (cli : CLI)
    (source : GoString) (others : List GoString) (ext : GoString)
    (hsrc : cli.options .Source = source :: others) (hver : cli.options .VersionFlag = [])
    (hhelp : cli.options .HelpFlag = []) (htd : (cli.options .TargetDir).length ≤ 1)
    (hext : ExtractFileExtension source = some ext)
    (hunmapped : LookupExtensionByImage ext = []) :
    main abs true true cli = RunDexecContainer abs [] cli.options ∧
    (∃ absPath, Effect.RunAnonymousContainer (String.toList "dexec/")
      (dockerArgsOf absPath cli.options) (entrypointArgsOf cli.options) ∈ main abs true true cli) ∧
    (∀ msg, Effect.Fatal msg ∉ main abs true true cli) ∧
    Effect.Panic ∉ main abs true true cli := by
  have hmain := main_of_valid abs cli source others ext hsrc hver hhelp htd hext
  rw [hunmapped] at hmain
  rw [hmain]
  refine ⟨rfl, ?_, ?_, ?_⟩
  · refine ⟨abs (match cli.options .TargetDir with
      | [] => String.toList "."
      | t :: _ => t), ?_⟩
    simp [RunDexecContainer, dexecImageTemplate]
  · intro msg
    by_cases hu : (cli.options .UpdateFlag).length > 0 <;> simp [RunDexecContainer, hu]
  · by_cases hu : (cli.options .UpdateFlag).length > 0 <;> simp [RunDexecContainer, hu]

/-- C8, amended, at the single source `file.xyz`. -/
theorem unmapped_extension_not_refused_witness :
    main (fun _ => String.toList "/work") true true
        ⟨String.toList "dexec", fun o => match o with
          | .Source => [String.toList "file.xyz"]
          | _ => []⟩ =
      RunDexecContainer (fun _ => String.toList "/work") []
        (fun o => match o with
          | .Source => [String.toList "file.xyz"]
          | _ => []) :=
  (unmapped_extension_not_refused (fun _ => String.toList "/work")
    ⟨String.toList "dexec", fun o => match o with
      | .Source => [String.toList "file.xyz"]
      | _ => []⟩
    (String.toList "file.xyz") [] (String.toList "xyz") rfl rfl rfl (by decide) (by decide)
    (by decide)).1

/-- C10: for a key `k` of the table and a stem `p` without `:` and line feed,
the extension of `p.k` is `k`, so the image reference computed for a first
source `p.k` is `dexec/` followed by the image of `k`, and `main` launches the
container with it; `main.py` gives `dexec/python`. -/
theorem image_reference_of_key (kv : String × String) (hkv : kv ∈ innerMap) (p : GoString)
    (hp : ':' ∉ p ∧ '\n' ∉ p) (abs : GoString → GoString) (cli : CLI) (others : List GoString)
    (hsrc : cli.options .Source = (p ++ ['.'] ++ String.toList (Prod.fst kv)) :: others)
    (hver : cli.options .VersionFlag = []) (hhelp : cli.options .HelpFlag = [])
    (htd : (cli.options .TargetDir).length ≤ 1) :
    ExtractFileExtension (p ++ ['.'] ++ String.toList (Prod.fst kv)) =
      some (String.toList (Prod.fst kv)) ∧
    (ExtractFileExtension (p ++ ['.'] ++ String.toList (Prod.fst kv))).map
        (fun ext => dexecImageTemplate (LookupExtensionByImage ext)) =
      some (String.toList "dexec/" ++ String.toList (Prod.snd kv)) ∧
    main abs true true cli = RunDexecContainer abs (String.toList (Prod.snd kv)) cli.options ∧
    ∃ dockerArgs entrypointArgs,
      Effect.RunAnonymousContainer (String.toList "dexec/" ++ String.toList (Prod.snd kv))
        dockerArgs entrypointArgs ∈ main abs true true cli := by
  obtain ⟨hkey, hlook⟩ := innerMap_keys kv hkv
  have hext : ExtractFileExtension (p ++ ['.'] ++ String.toList (Prod.fst kv)) =
      some (String.toList (Prod.fst kv)) := by
    have := extract_single_line p (String.toList (Prod.fst kv))
      (fun c hc => (hkey c hc).1)
      (by
        intro c hc
        simp only [List.mem_append, List.mem_cons] at hc
        rcases hc with hc | hc | hc
        · exact fun hn => hp.2 (hn ▸ hc)
        · subst hc; decide
        · exact (hkey c hc).2.2)
      (by
        intro a' b hab c hc hn
        subst hn
        have hmem : ':' ∈ p ++ '.' :: String.toList (Prod.fst kv) := by
          rw [hab]; simp [hc]
        simp only [List.mem_append, List.mem_cons] at hmem
        rcases hmem with h | h | h
        · exact hp.1 h
        · exact absurd h (by decide)
        · exact (hkey ':' h).2.1 rfl)
    simpa using this
  have hmain := main_of_valid abs cli _ others _ hsrc hver hhelp htd hext
  rw [hlook] at hmain
  refine ⟨hext, ?_, hmain, ?_⟩
  · rw [hext]
    simp only [Option.map_some', dexecImageTemplate, hlook]
  · rw [hmain]
    refine ⟨dockerArgsOf (abs (match cli.options .TargetDir with
      | [] => String.toList "."
      | t :: _ => t)) cli.options, entrypointArgsOf cli.options, ?_⟩
    simp [RunDexecContainer, dexecImageTemplate]

/-- C10 at the source `main.py`. -/
theorem image_reference_of_key_witness :
    ExtractFileExtension (String.toList "main" ++ ['.'] ++ String.toList "py") =
      some (String.toList "py") ∧
    (ExtractFileExtension (String.toList "main" ++ ['.'] ++ String.toList "py")).map
        (fun ext => dexecImageTemplate (LookupExtensionByImage ext)) =
      some (String.toList "dexec/" ++ String.toList "python") :=
  have h := image_reference_of_key ("py", "python") (by decide) (String.toList "main")
    (by decide) (fun _ => String.toList "/work")
    ⟨String.toList "dexec", fun o => match o with
      | .Source => [String.toList "main.py"]
      | .Arg => [String.toList "--flag"]
      | _ => []⟩ [] (by decide) rfl rfl (by decide)
  ⟨h.1, h.2.1⟩

/-- C11, as stated, fails: parsing the include `lib.rs:ro` yields the
permission `:ro`, with its colon, which is none of the bare values `ro`, `rw`
and the empty string. -/
theorem permission_not_bare :
    ExtractBasenameAndPermission ['l', 'i', 'b', '.', 'r', 's', ':', 'r', 'o'] =
      (['l', 'i', 'b', '.', 'r', 's'], [':', 'r', 'o']) ∧
    (ExtractBasenameAndPermission ['l', 'i', 'b', '.', 'r', 's', ':', 'r', 'o']).2 ∉
      [['r', 'o'], ['r', 'w'], []] := by
  decide

/-- C11, amended: for every input the permission returned by
`ExtractBasenameAndPermission` is `:ro`, `:rw`, colon included, or the empty
string; parsing the include `lib.rs:ro` yields the basename `lib.rs` and the
permission `:ro`. -/
theorem permission_values (path : GoString) :
    (ExtractBasenameAndPermission path).2 ∈ [[':', 'r', 'o'], [':', 'r', 'w'], []] ∧
    ExtractBasenameAndPermission ['l', 'i', 'b', '.', 'r', 's', ':', 'r', 'o'] =
      (['l', 'i', 'b', '.', 'r', 's'], [':', 'r', 'o']) := by
  refine ⟨?_, by decide⟩
  rcases extractBasename_cases path with ⟨_, he⟩ | ⟨u, w, sfx, v, _, _, _, hsfx, he, _⟩
  · rw [he]; simp
  · rw [he]
    simp only [permSuffixes, List.mem_cons, List.mem_nil_iff, or_false] at hsfx
    rcases hsfx with h | h <;> subst h <;> simp

/-- C13, as stated, fails: `x.c:z.` ends in a `.`, and yet the permission
pattern matches and the token is `c`, which the table maps to the image `c`.
It also fails with a line feed: in `a.c`, line feed, `d.` the match is on the
first line and the token is `c` again. -/
theorem trailing_dot_counterexample :
    ExtractFileExtension ['x', '.', 'c', ':', 'z', '.'] = some ['c'] ∧
    ExtractFileExtension ['x', '.', 'c', ':', 'z', '.'] ≠ some [] ∧
    LookupExtensionByImage ['c'] ≠ [] ∧
    ExtractFileExtension ['a', '.', 'c', '\n', 'd', '.'] = some ['c'] := by
  decide

/-- C13, amended: for every filename that ends in a `.`, has no line feed and
no `:` after a `.`, `ExtractFileExtension` returns the empty token, and
`LookupExtensionByImage` of that token is the empty result. -/
theorem trailing_dot_empty_token (filename stem : GoString) (hend : filename = stem ++ ['.'])
    (hnl : '\n' ∉ filename) (hcolon : ∀ a b, filename = a ++ '.' :: b → ':' ∉ b) :
    ExtractFileExtension filename = some [] ∧
    ∀ tok, ExtractFileExtension filename = some tok → LookupExtensionByImage tok = [] := by
  subst hend
  have h : ExtractFileExtension (stem ++ ['.']) = some [] :=
    extract_single_line stem [] (by simp) (fun c hc hn => hnl (hn ▸ hc))
      (fun a' b hab c hc hn => hcolon a' b hab (hn ▸ hc))
  refine ⟨h, ?_⟩
  intro tok htok
  rw [h] at htok
  simp only [Option.some.injEq] at htok
  subst htok
  decide

/-- C13, amended, at the filename `main.`. -/
theorem trailing_dot_empty_token_witness :
    ExtractFileExtension ['m', 'a', 'i', 'n', '.'] = some [] :=
  (trailing_dot_empty_token ['m', 'a', 'i', 'n', '.'] ['m', 'a', 'i', 'n'] (by decide)
    (by decide)
    (by
      intro a b hab hmem
      have hsub : b <:+ ['m', 'a', 'i', 'n', '.'] := ⟨a ++ ['.'], by rw [hab]; simp⟩
      exact absurd (hsub.subset hmem) (by decide))).1

/-- C14, as stated, fails: for `main.py:ro` the remainder after the last `.` is
`py:ro`, and `ExtractFileExtension` returns `py`.  It also fails with a line
feed: in `a.b`, line feed, `c.d` the remainder after the last `.` is `d`, and
the result is `b`. -/
theorem remainder_counterexample :
    '.' ∈ ['m', 'a', 'i', 'n', '.', 'p', 'y', ':', 'r', 'o'] ∧
    ExtractFileExtension ['m', 'a', 'i', 'n', '.', 'p', 'y', ':', 'r', 'o'] = some ['p', 'y'] ∧
    ExtractFileExtension ['m', 'a', 'i', 'n', '.', 'p', 'y', ':', 'r', 'o'] ≠
      some ['p', 'y', ':', 'r', 'o'] ∧
    ExtractFileExtension ['a', '.', 'b', '\n', 'c', '.', 'd'] = some ['b'] := by
  decide

/-- C14, amended: for a filename without a line feed, `ExtractFileExtension`
returns the remainder after the last `.` when no `:` comes after a `.`; when a
`:` comes after a `.`, it returns the text between the last `.` that has a `:`
after it and the last `:`. -/
theorem extension_one_line (filename a e t : GoString) (hnl : '\n' ∉ filename)
    (hlast : '.' ∉ e) :
    (filename = a ++ '.' :: e → (∀ a' b, filename = a' ++ '.' :: b → ':' ∉ b) →
      ExtractFileExtension filename = some e) ∧
    (filename = a ++ '.' :: (e ++ ':' :: t) → ':' ∉ t →
      ExtractFileExtension filename = some e) := by
  constructor
  · intro hsplit hcolon
    subst hsplit
    exact extract_single_line a e (fun c hc hn => hlast (hn ▸ hc))
      (fun c hc hn => hnl (hn ▸ hc))
      (fun a' b hab c hc hn => hcolon a' b hab (hn ▸ hc))
  · intro hsplit ht
    subst hsplit
    have := extract_with_permission a e t []
      (fun c hc hn => hnl (by rw [← hn]; simp [hc]))
      (fun c hc => ⟨fun hn => hnl (by rw [← hn]; simp [hc]), fun hn => hlast (hn ▸ hc)⟩)
      (fun c hc => ⟨fun hn => hnl (by rw [← hn]; simp [hc]), fun hn => ht (hn ▸ hc)⟩)
      (by simp)
    simpa using this

/-- C14, amended, at the filenames `a.tar.gz` and `a.tar.gz:ro`. -/
theorem extension_one_line_witness :
    ExtractFileExtension ['a', '.', 't', 'a', 'r', '.', 'g', 'z'] = some ['g', 'z'] ∧
    ExtractFileExtension ['a', '.', 't', 'a', 'r', '.', 'g', 'z', ':', 'r', 'o'] =
      some ['g', 'z'] :=
  ⟨(extension_one_line ['a', '.', 't', 'a', 'r', '.', 'g', 'z']
      ['a', '.', 't', 'a', 'r'] ['g', 'z'] [] (by decide) (by decide)).1 (by decide)
      (by
        intro a' b hab hmem
        have hsub : b <:+ ['a', '.', 't', 'a', 'r', '.', 'g', 'z'] :=
          ⟨a' ++ ['.'], by rw [hab]; simp⟩
        exact absurd (hsub.subset hmem) (by decide)),
   (extension_one_line ['a', '.', 't', 'a', 'r', '.', 'g', 'z', ':', 'r', 'o']
      ['a', '.', 't', 'a', 'r'] ['g', 'z'] ['r', 'o'] (by decide) (by decide)).2
      (by decide) (by decide)⟩

/-- C16: with `(b, p)` the result of `ExtractBasenameAndPermission` on `s`,
`p` is empty, `:ro` or `:rw`; when `p` is empty `b` is `s`; when `p` is not
empty `b` is a non-empty string of characters of `[A-Za-z0-9_.-]`, so without
`/` and `:`, and `b` followed by `p` occurs in `s`; and `b` is empty only when
`s` is. -/
theorem parse_result_shape (s : GoString) :
    ((ExtractBasenameAndPermission s).2 = [] ∨
      (ExtractBasenameAndPermission s).2 = [':', 'r', 'o'] ∨
      (ExtractBasenameAndPermission s).2 = [':', 'r', 'w']) ∧
    ((ExtractBasenameAndPermission s).2 = [] → (ExtractBasenameAndPermission s).1 = s) ∧
    ((ExtractBasenameAndPermission s).2 ≠ [] →
      (ExtractBasenameAndPermission s).1 ≠ [] ∧
      (∀ c ∈ (ExtractBasenameAndPermission s).1, isNameChar c = true) ∧
      '/' ∉ (ExtractBasenameAndPermission s).1 ∧ ':' ∉ (ExtractBasenameAndPermission s).1 ∧
      ∃ u v, s = u ++ ((ExtractBasenameAndPermission s).1 ++
        (ExtractBasenameAndPermission s).2) ++ v) ∧
    ((ExtractBasenameAndPermission s).1 = [] → s = []) := by
  rcases extractBasename_cases s with ⟨_, he⟩ | ⟨u, w, sfx, v, hs, hne, hw, hsfx, he, _⟩
  · rw [he]
    simp
  · rw [he]
    have hsfx' := hsfx
    simp only [permSuffixes, List.mem_cons, List.mem_nil_iff, or_false] at hsfx'
    refine ⟨Or.inr hsfx', ?_, ?_, ?_⟩
    · intro h
      exact absurd h (permSuffix_ne_nil sfx hsfx)
    · intro _
      refine ⟨hne, hw, ?_, ?_, u, v, by rw [hs]; simp⟩
      · intro hmem
        exact absurd (hw '/' hmem) (by decide)
      · intro hmem
        exact absurd (hw ':' hmem) (by decide)
    · intro h
      exact absurd h hne

/-- C17: parsing is idempotent on the basename: the basename of any input
parses to itself with the empty permission. -/
theorem parse_basename_idempotent (s : GoString) :
    ExtractBasenameAndPermission (ExtractBasenameAndPermission s).1 =
      ((ExtractBasenameAndPermission s).1, []) := by
  rcases extractBasename_cases s with ⟨_, he⟩ | ⟨u, w, sfx, v, _, _, hw, _, he, _⟩
  · rw [he]
    exact he
  · rw [he]
    exact extractBasename_of_none w
      ((findFrom_pathPattern_none_iff w).mpr (not_hasPermission_of_name w hw))

/-- C19: a token returned by `ExtractFileExtension` has no `.` and no line
feed, and occurs in the filename right after a `.`. -/
theorem token_shape (filename tok : GoString)
    (h : ExtractFileExtension filename = some tok) :
    '.' ∉ tok ∧ '\n' ∉ tok ∧ ∃ pre post, filename = pre ++ '.' :: (tok ++ post) := by
  rcases extract_cases filename tok h with
    ⟨u, a, t, v, hs, _, htok, _, _, _⟩ | ⟨_, u, a, v, hs, _, htok, _, _⟩
  · exact ⟨fun hm => (htok '.' hm).2 rfl, fun hm => (htok '\n' hm).1 rfl,
      u ++ a, ':' :: (t ++ v), by rw [hs]; simp⟩
  · exact ⟨fun hm => (htok '.' hm).2 rfl, fun hm => (htok '\n' hm).1 rfl,
      u ++ a, v, by rw [hs]; simp⟩

/-- C19 at the filename `lib.tar.gz:ro`, whose token is `gz`. -/
theorem token_shape_witness :
    '.' ∉ ['g', 'z'] ∧ '\n' ∉ ['g', 'z'] ∧
    ∃ pre post, ['l', 'i', 'b', '.', 't', 'a', 'r', '.', 'g', 'z', ':', 'r', 'o'] =
      pre ++ '.' :: (['g', 'z'] ++ post) :=
  token_shape ['l', 'i', 'b', '.', 't', 'a', 'r', '.', 'g', 'z', ':', 'r', 'o'] ['g', 'z']
    (by decide)

/-- C18: for a basename `b` of characters of `[A-Za-z0-9_.-]` that contains a
`.`, and a suffix `:ro` or `:rw`, `ExtractFileExtension` gives the same token
on `b` with the suffix, on `b`, and on the basename parsed from `b` with the
suffix; so the image looked up from the raw source is the image looked up from
its parsed basename. -/
theorem parsers_agree (b sfx : GoString) (hcls : ∀ c ∈ b, isNameChar c = true)
    (hdot : '.' ∈ b) (hsfx : sfx = [':', 'r', 'o'] ∨ sfx = [':', 'r', 'w']) :
    ExtractFileExtension (b ++ sfx) = ExtractFileExtension b ∧
    ExtractFileExtension b =
      ExtractFileExtension (ExtractBasenameAndPermission (b ++ sfx)).1 ∧
    (∃ tok, ExtractFileExtension b = some tok) ∧
    (ExtractFileExtension (b ++ sfx)).map LookupExtensionByImage =
      (ExtractFileExtension (ExtractBasenameAndPermission (b ++ sfx)).1).map
        LookupExtensionByImage := by
  obtain ⟨a, e, hae, he⟩ := exists_last_split '.' b hdot
  have hnl : ∀ c ∈ b, c ≠ '\n' := by
    intro c hc hn
    subst hn
    exact absurd (hcls '\n' hc) (by decide)
  have hcol : ∀ c ∈ b, c ≠ ':' := by
    intro c hc hn
    subst hn
    exact absurd (hcls ':' hc) (by decide)
  have hb : ExtractFileExtension b = some e := by
    rw [hae]
    exact extract_single_line a e (fun c hc hn => he (hn ▸ hc))
      (fun c hc => hnl c (hae ▸ hc))
      (fun a' b' hab c hc => hcol c (by rw [hae, hab]; simp [hc]))
  have hbs : ExtractFileExtension (b ++ sfx) = some e := by
    have key : ∀ x : Char, x ≠ '\n' → x ≠ ':' →
        ExtractFileExtension (b ++ [':', 'r', x]) = some e := by
      intro x hx1 hx2
      have := extract_with_permission a e ['r', x] []
        (fun c hc => hnl c (by rw [hae]; simp [hc]))
        (fun c hc => ⟨hnl c (by rw [hae]; simp [hc]), fun hn => he (hn ▸ hc)⟩)
        (by
          intro c hc
          simp only [List.mem_cons, List.mem_nil_iff, or_false] at hc
          rcases hc with hc | hc
          · subst hc; exact ⟨by decide, by decide⟩
          · subst hc; exact ⟨hx1, hx2⟩)
        (by simp)
      rw [hae]
      simpa using this
    rcases hsfx with h | h <;> subst h
    · exact key 'o' (by decide) (by decide)
    · exact key 'w' (by decide) (by decide)
  have hparse : (ExtractBasenameAndPermission (b ++ sfx)).1 = b := by
    have := extractBasename_name_suffix b sfx []
      (by intro h0; rw [h0] at hdot; simp at hdot) hcls
      (by rcases hsfx with h | h <;> subst h <;> simp [permSuffixes])
    simp only [List.append_nil] at this
    rw [this]
  rw [hparse, hbs, hb]
  exact ⟨rfl, rfl, ⟨e, rfl⟩, rfl⟩

/-- C18 at the basename `main.py` and the suffix `:ro`. -/
theorem parsers_agree_witness :
    ExtractFileExtension (['m', 'a', 'i', 'n', '.', 'p', 'y'] ++ [':', 'r', 'o']) =
      ExtractFileExtension ['m', 'a', 'i', 'n', '.', 'p', 'y'] :=
  (parsers_agree ['m', 'a', 'i', 'n', '.', 'p', 'y'] [':', 'r', 'o'] (by decide) (by decide)
    (by decide)).1

/-- C12, as stated, fails: for the source `dir/sub.py:ro` the container side
of the mount is the build root followed by the raw entry `dir/sub.py:ro`,
while the parsed basename followed by the parsed permission is `sub.py:ro`. -/
theorem container_side_counterexample :
    dockerArgsOf (String.toList "/work") (fun o => match o with
      | .Source => [String.toList "dir/sub.py:ro"]
      | _ => []) =
      [String.toList "-v", String.toList "/work/sub.py:/tmp/dexec/build/dir/sub.py:ro"] ∧
    (ExtractBasenameAndPermission (String.toList "dir/sub.py:ro")).1 ++
      (ExtractBasenameAndPermission (String.toList "dir/sub.py:ro")).2 =
      String.toList "sub.py:ro" ∧
    (ExtractBasenameAndPermission (String.toList "dir/sub.py:ro")).1 ++
      (ExtractBasenameAndPermission (String.toList "dir/sub.py:ro")).2 ≠
      String.toList "dir/sub.py:ro" := by
  decide

/-- C12, amended: the container side of the mount of an entry is the build
root `/tmp/dexec/build/` followed by the raw entry; the raw entry is the
parsed basename followed by the parsed permission exactly when the entry holds
no permission suffix right after a character of `[A-Za-z0-9_.-]`, or is a run
of such characters followed by `:ro` or `:rw` and nothing else. -/
theorem container_side_raw_entry (absPath : GoString) (options : Options) (e : GoString)
    (abs : GoString → GoString) (dexecImage : GoString) :
    dockerArgsOf absPath options =
      (options .Source ++ options .Include).flatMap (fun e =>
        [['-', 'v'], absPath ++ ['/'] ++ (ExtractBasenameAndPermission e).1 ++ [':'] ++
          (String.toList "/tmp/dexec/build/" ++ e)]) ∧
    ((ExtractBasenameAndPermission e).1 ++ (ExtractBasenameAndPermission e).2 = e ↔
      (¬ HasPermission e ∨
        ∃ w sfx, e = w ++ sfx ∧ w ≠ [] ∧ (∀ c ∈ w, isNameChar c = true) ∧
          (sfx = [':', 'r', 'o'] ∨ sfx = [':', 'r', 'w']))) ∧
    RunDexecContainer abs dexecImage options =
      (if (options .UpdateFlag).length > 0
        then [Effect.DockerPull (String.toList "dexec/" ++ dexecImage)] else []) ++
      [Effect.RunAnonymousContainer (String.toList "dexec/" ++ dexecImage)
        ((options .Source ++ options .Include).flatMap (fun e =>
          [['-', 'v'], abs (match options .TargetDir with
              | [] => ['.']
              | t :: _ => t) ++ ['/'] ++ (ExtractBasenameAndPermission e).1 ++ [':'] ++
            (String.toList "/tmp/dexec/build/" ++ e)]))
        (entrypointArgsOf options)] := by
  have hargs : ∀ absPath : GoString, dockerArgsOf absPath options =
      (options .Source ++ options .Include).flatMap (fun e =>
        [['-', 'v'], absPath ++ ['/'] ++ (ExtractBasenameAndPermission e).1 ++ [':'] ++
          (String.toList "/tmp/dexec/build/" ++ e)]) := by
    intro absPath
    simp only [dockerArgsOf, foldl_append_eq_flatMap, List.nil_append]
    congr 1
    funext x
    simp [dexecVolumeTemplate, dexecPath]
  refine ⟨hargs absPath, ?_, ?_⟩
  · rw [basename_append_permission_iff]
    simp [permSuffixes]
  · rw [← hargs]
    cases h : options .TargetDir <;> simp [RunDexecContainer, dexecImageTemplate, h]

/-- C15: `ExtractBasenameAndPermission` returns a non-empty permission exactly
when the input has a character of `[A-Za-z0-9_.-]` immediately followed by
`:ro` or `:rw`; text before the name and after the suffix does not prevent it;
and the match used is the leftmost: the basename is a run of class characters
that cannot be extended to the left, and no other class character with a
suffix right after it ends before the basename does. -/
theorem permission_recognised (s : GoString) :
    ((ExtractBasenameAndPermission s).2 ≠ [] ↔ HasPermission s) ∧
    (∀ pre name sfx post, name ≠ [] → (∀ c ∈ name, isNameChar c = true) →
      (sfx = [':', 'r', 'o'] ∨ sfx = [':', 'r', 'w']) → s = pre ++ name ++ sfx ++ post →
      (ExtractBasenameAndPermission s).2 ≠ []) ∧
    ((ExtractBasenameAndPermission s).2 ≠ [] →
      ∃ u v, s = u ++ ((ExtractBasenameAndPermission s).1 ++
          ((ExtractBasenameAndPermission s).2 ++ v)) ∧
        (∀ c ∈ u.getLast?, isNameChar c = false) ∧
        ∀ u' c sfx' v', s = u' ++ c :: (sfx' ++ v') → isNameChar c = true →
          (sfx' = [':', 'r', 'o'] ∨ sfx' = [':', 'r', 'w']) →
          u.length + (ExtractBasenameAndPermission s).1.length ≤ u'.length + 1) := by
  have hiff : (ExtractBasenameAndPermission s).2 ≠ [] ↔ HasPermission s := by
    constructor
    · intro h
      by_contra hn
      rw [extractBasename_of_none s ((findFrom_pathPattern_none_iff s).mpr hn)] at h
      exact h rfl
    · intro h
      rcases extractBasename_cases s with ⟨hn, _⟩ | ⟨u, w, sfx, v, _, _, _, hsfx, he, _⟩
      · exact absurd h hn
      · rw [he]
        exact permSuffix_ne_nil sfx hsfx
  refine ⟨hiff, ?_, ?_⟩
  · intro pre name sfx post hne hname hsfx hs
    apply hiff.mpr
    obtain ⟨name', c, hnc⟩ : ∃ name' c, name = name' ++ [c] := by
      rcases List.eq_nil_or_concat name with h0 | ⟨name', c, h1⟩
      · exact absurd h0 hne
      · exact ⟨name', c, by simpa using h1⟩
    exact ⟨pre ++ name', c, sfx, post, by rw [hs, hnc]; simp,
      hname c (by rw [hnc]; simp), by simpa [permSuffixes] using hsfx⟩
  · intro h
    rcases extractBasename_cases s with ⟨_, he⟩ | ⟨u, w, sfx, v, hs, _, hw, hsfx, he, hmin⟩
    · rw [he] at h
      exact absurd rfl h
    · rw [he]
      refine ⟨u, v, hs, ?_, ?_⟩
      · exact run_starts_at_boundary u w sfx v hw hsfx (by rw [← hs]; exact hmin)
      · intro u' c sfx' v' hs' hc hsfx'
        exact candidate_not_before u w sfx v u' sfx' v' c hw (by rw [← hs]; exact hmin)
          (by rw [← hs]; exact hs') hc (by simpa [permSuffixes] using hsfx')

end Dexec
